import Mathlib

/-!
Verification development for the WordSolversPython core: the quantified
character-class model (`BlankSpace`), the word-pattern model (`UnknownWord`),
the notation parsers (`parse_blank_space`, `parse_unknown_word`), and the
trie-search primitive (`DictionaryNode.get_possible_children`), shallowly
embedded from `src/word_objects.py`, `src/parsers.py` and `src/word_utils.py`.

Python integers are modelled as `Int` (the code uses `-1` as the
"unbounded" sentinel for repetition maxima and relies on ordinary integer
arithmetic on it). Python character sets are modelled as `Finset Char`;
Python strings as `List Char`. Python `None` becomes `Option`, and raised
exceptions become `Except` / explicit error constructors.
-/

deriving instance DecidableEq for Except

namespace WordSolvers

/-- Embedding of `all_character_set` / `string.ascii_lowercase`: the list of
the 26 lowercase letters. -/
def alphabetList : List Char := "abcdefghijklmnopqrstuvwxyz".toList

/-- Embedding of `all_character_set()` from `word_objects.py`: the set of the
26 lowercase letters. -/
def allCharacterSet : Finset Char := alphabetList.toFinset

/-- Deterministic enumeration of a finite character set as a sorted list.
Python iterates sets in an unspecified order; every property proved below is
insensitive to the enumeration order, and the sorted order is also exactly
what `sorted(...)` produces in `BlankSpace.__repr__`. -/
def charList (s : Finset Char) : List Char :=
  Quot.liftOn s.val (fun l => l.insertionSort (· ≤ ·)) (fun a b hab => by
    exact List.eq_of_perm_of_sorted
      (((List.perm_insertionSort _ a).trans hab).trans (List.perm_insertionSort _ b).symm)
      (List.sorted_insertionSort _ a) (List.sorted_insertionSort _ b))

/-- Embedding of the `BlankSpace` attribute record from `word_objects.py`. -/
structure BlankSpace where
  bracketed : Bool
  negated : Bool
  min_blanks : Int
  max_blanks : Int
  possible_characters : Finset Char
deriving DecidableEq

/-- Embedding of `BlankSpace.add`: set union with the given characters. -/
def BlankSpace.add (b : BlankSpace) (chars : List Char) : BlankSpace :=
  { b with possible_characters := b.possible_characters ∪ chars.toFinset }

/-- Embedding of `BlankSpace.remove`: set difference with the given characters. -/
def BlankSpace.removeSet (b : BlankSpace) (chars : Finset Char) : BlankSpace :=
  { b with possible_characters := b.possible_characters \ chars }

/-- Embedding of `BlankSpace.append`: add or remove the characters depending
on the negation flag. -/
def BlankSpace.append (b : BlankSpace) (chars : List Char) : BlankSpace :=
  if b.negated then b.removeSet chars.toFinset else b.add chars

/-- Embedding of `BlankSpace.__init__`: the starting character set is the full
alphabet when the space is an unbracketed bare blank or is negated, otherwise
empty; then `chars` is appended. The constructor performs no validation of
`min_blanks`/`max_blanks`. -/
def mkBlankSpace (bracketed : Bool) (negated : Bool) (min_blanks max_blanks : Int)
    (chars : List Char) : BlankSpace :=
  let base : BlankSpace :=
    { bracketed := bracketed, negated := negated,
      min_blanks := min_blanks, max_blanks := max_blanks,
      possible_characters :=
        if (!bracketed && chars.isEmpty) || negated then allCharacterSet else ∅ }
  base.append chars

/-- Embedding of the `BlankSpace.is_empty` property (`max_blanks == 0`). -/
def BlankSpace.is_empty (b : BlankSpace) : Bool := b.max_blanks == 0

/-- Embedding of the `BlankSpace.is_singular` property. -/
def BlankSpace.is_singular (b : BlankSpace) : Bool :=
  b.min_blanks == 1 && b.max_blanks == 1

/-- Embedding of the `BlankSpace.is_all_chars` property. -/
def BlankSpace.is_all_chars (b : BlankSpace) : Bool :=
  b.possible_characters == allCharacterSet

/-- Embedding of the `BlankSpace.is_determinant` property. -/
def BlankSpace.is_determinant (b : BlankSpace) : Bool :=
  b.possible_characters.card == 1 && b.min_blanks == b.max_blanks

/-- Embedding of `BlankSpace.apply_filter`: conditionally intersect the
character set with the filter characters by removing `all_character_set() -
filter_chars`. -/
def BlankSpace.apply_filter (b : BlankSpace) (filter_chars : Finset Char)
    (hard : Bool) : BlankSpace :=
  if (hard && (b.bracketed || decide (1 < b.possible_characters.card)))
      || (!hard && !b.bracketed && decide (1 < b.possible_characters.card)) then
    b.removeSet (allCharacterSet \ filter_chars)
  else b

/-- Embedding of `BlankSpace.with_filter`: clone then `apply_filter`; since the
embedding is pure, this coincides with `apply_filter`. -/
def BlankSpace.with_filter (b : BlankSpace) (filter_chars : Finset Char)
    (hard : Bool) : BlankSpace :=
  b.apply_filter filter_chars hard

/-- Core computation of `BlankSpace.clone_minus` (everything after the
`is_empty` guard): `new_min = max(0, min - sub_max)`, `new_max = -1` when
unbounded else `max - sub_min`, and the clone keeps the receiver's character
set. -/
def BlankSpace.cloneMinusCore (b : BlankSpace) (sub_min sub_max : Int) : BlankSpace :=
  let new_min : Int := max 0 (b.min_blanks - sub_max)
  let new_max : Int := if b.max_blanks = -1 then -1 else b.max_blanks - sub_min
  let clone := mkBlankSpace b.bracketed b.negated new_min new_max []
  { clone with possible_characters := b.possible_characters }

/-- Embedding of `BlankSpace.clone_minus` with its `ValueError` guard: raises
when the receiver is already empty (`max_blanks == 0`); `sub_max = none`
models the Python default `sub_max=None`, which is replaced by `sub_min`. -/
def BlankSpace.clone_minus (b : BlankSpace) (sub_min : Int) (sub_max : Option Int) :
    Except String BlankSpace :=
  if b.is_empty then
    .error "Cannot create a new BlankSpace with less spaces than none"
  else
    .ok (b.cloneMinusCore sub_min (sub_max.getD sub_min))

/-- Embedding of the `UnknownWord` attribute record from `word_objects.py`. -/
structure UnknownWord where
  spaces : List BlankSpace
  filter : Option BlankSpace
  hard_filter : Bool
deriving DecidableEq

/-- Embedding of `UnknownWord.__init__` with its `ValueError` guard: a present
filter must be bracketed. -/
def mkUnknownWord (spaces : List BlankSpace) (filter : Option BlankSpace)
    (hard_filter : Bool) : Except String UnknownWord :=
  match filter with
  | some f => if !f.bracketed then .error "A filter must be bracketed"
              else .ok ⟨spaces, filter, hard_filter⟩
  | none => .ok ⟨spaces, none, hard_filter⟩

/-- Embedding of the `UnknownWord.has_filter` property. -/
def UnknownWord.has_filter (w : UnknownWord) : Bool := w.filter.isSome

/-- Embedding of `UnknownWord._calc_length_bounds`: fold the unit bounds,
with `-1` (unbounded) absorbing on the max side. -/
def UnknownWord.calc_length_bounds (w : UnknownWord) : Int × Int :=
  w.spaces.foldl
    (fun acc space =>
      (acc.1 + space.min_blanks,
       if acc.2 = -1 ∨ space.max_blanks = -1 then -1 else acc.2 + space.max_blanks))
    (0, 0)

/-- Embedding of the `UnknownWord.min_letters` property. -/
def UnknownWord.min_letters (w : UnknownWord) : Int :=
  let calc_min := w.calc_length_bounds.1
  match w.filter with
  | none => calc_min
  | some f => max calc_min f.min_blanks

/-- Embedding of the `UnknownWord.max_letters` property. -/
def UnknownWord.max_letters (w : UnknownWord) : Int :=
  let calc_max := w.calc_length_bounds.2
  match w.filter with
  | none => calc_max
  | some f =>
    if calc_max = -1 ∨ f.max_blanks = -1 then max calc_max f.max_blanks
    else min calc_max f.max_blanks

/-- Embedding of the `UnknownWord.is_possible` property: the chained Python
comparisons `filter.min_blanks <= calc_min <= filter.max_blanks` (and the same
for `calc_max`) are taken literally, including on the `-1` sentinel. -/
def UnknownWord.is_possible (w : UnknownWord) : Bool :=
  match w.filter with
  | none => true
  | some f =>
    let cb := w.calc_length_bounds
    (decide (f.min_blanks ≤ cb.1) && decide (cb.1 ≤ f.max_blanks))
      || (decide (f.min_blanks ≤ cb.2) && decide (cb.2 ≤ f.max_blanks))

/-- Embedding of `UnknownWord.get_effective_spaces`: the unit list with the
filter's character set applied to each unit when a filter exists. -/
def UnknownWord.get_effective_spaces (w : UnknownWord) : List BlankSpace :=
  match w.filter with
  | none => w.spaces
  | some f => w.spaces.map (fun s => s.with_filter f.possible_characters w.hard_filter)

/-- Embedding of the `DictionaryNode` trie from `word_objects.py`. The Python
node stores a parent back-reference used only to reconstruct the word of a
node (`__repr__`); in this pure embedding the search functions thread the
root-to-node path explicitly instead, and children are an insertion-ordered
association list mirroring the Python dict. -/
inductive DictionaryNode where
  | mk (is_word : Bool) (children : List (Char × DictionaryNode))

/-- Terminal-word flag of a node. -/
def DictionaryNode.is_word : DictionaryNode → Bool
  | .mk w _ => w

/-- Children association list of a node. -/
def DictionaryNode.children : DictionaryNode → List (Char × DictionaryNode)
  | .mk _ ch => ch

/-- Lookup of a child along a one-character path (`self.children.get(c)`). -/
def lookupChild : List (Char × DictionaryNode) → Char → Option DictionaryNode
  | [], _ => none
  | (d, t) :: rest, c => if d = c then some t else lookupChild rest c

/-- Dict assignment `self.children[path] = node`: replace in place if the key
exists, otherwise append (Python dicts preserve insertion order). -/
def updateChild : List (Char × DictionaryNode) → Char → DictionaryNode →
    List (Char × DictionaryNode)
  | [], c, t => [(c, t)]
  | (d, u) :: rest, c, t =>
    if d = c then (c, t) :: rest else (d, u) :: updateChild rest c t

/-- Embedding of the per-word insertion loop of `create_dict_trie`
(`word_utils.py`): walk or create one child per letter of `word[:-1]`, then
mark (or create) the node for the last letter as a word. The empty-word case
cannot occur for the nonempty cleaned words this development uses. -/
def trieInsert : DictionaryNode → List Char → DictionaryNode
  | t, [] => t
  | .mk iw ch, [c] =>
    match lookupChild ch c with
    | some (.mk _ gch) => .mk iw (updateChild ch c (.mk true gch))
    | none => .mk iw (ch ++ [(c, .mk true [])])
  | .mk iw ch, c :: rest =>
    match lookupChild ch c with
    | some child => .mk iw (updateChild ch c (trieInsert child rest))
    | none => .mk iw (ch ++ [(c, trieInsert (.mk false []) rest)])

/-- Lowercasing of a single ASCII character, as `str.lower` acts on the
letters this code manipulates. -/
def pyLower (c : Char) : Char :=
  if 'A' ≤ c ∧ c ≤ 'Z' then Char.ofNat (c.toNat + 32) else c

/-- Letter test `'a' <= c <= 'z'`. -/
def isLowerAlpha (c : Char) : Bool := decide ('a' ≤ c) && decide (c ≤ 'z')

/-- Digit test `'0' <= c <= '9'`. -/
def isDigitChar (c : Char) : Bool := decide ('0' ≤ c) && decide (c ≤ '9')

/-- Embedding of `clean_word` (`word_utils.py`): lowercase, keep letters. -/
def cleanWord (s : List Char) : List Char :=
  (s.map pyLower).filter isLowerAlpha

/-- Embedding of `create_dict_trie` (`word_utils.py`). -/
def createDictTrie (words : List (List Char)) : DictionaryNode :=
  words.foldl (fun root w => trieInsert root (cleanWord w)) (.mk false [])

theorem lookupChild_sizeOf {ch : List (Char × DictionaryNode)} {c : Char}
    {t : DictionaryNode} (h : lookupChild ch c = some t) : sizeOf t < sizeOf ch := by
  induction ch with
  | nil => simp [lookupChild] at h
  | cons hd tl ih =>
    obtain ⟨d, u⟩ := hd
    rw [lookupChild] at h
    split at h
    · cases h; simp; omega
    · have := ih h; simp; omega

theorem children_sizeOf (t : DictionaryNode) : sizeOf t.children < sizeOf t := by
  cases t with
  | mk w ch => simp [DictionaryNode.children]

theorem lookupChild_sizeOf_node {t child : DictionaryNode} {c : Char}
    (h : lookupChild t.children c = some child) : sizeOf child < sizeOf t :=
  (lookupChild_sizeOf h).trans (children_sizeOf t)

/-- Embedding of the `max_layers_below` property of `DictionaryNode`: `0` for
a leaf, otherwise one more than the largest value among the children. -/
def maxLayersBelow : DictionaryNode → Nat
  | .mk _ ch =>
    (ch.attach.map (fun p => maxLayersBelow p.1.2 + 1)).foldl max 0
termination_by t => sizeOf t
decreasing_by
  have hm := List.sizeOf_lt_of_mem p.2
  obtain ⟨⟨d, u⟩, _⟩ := p
  simp at hm ⊢
  omega

/-- Embedding of `DictionaryNode.get_possible_children`: yield the node itself
when `min_blanks == 0`, stop when `max_blanks == 0`, and otherwise descend
into every existing child along a possible character with the class reduced by
one repetition (`space.clone_minus()`, whose `is_empty` guard cannot fire here
because of the preceding `max_blanks == 0` early return). The path from the
search root is threaded alongside each node, standing in for the Python
parent-chain word reconstruction. -/
def getPossibleChildren (path : List Char) (t : DictionaryNode) (space : BlankSpace) :
    List (List Char × DictionaryNode) :=
  (if space.min_blanks = 0 then [(path, t)] else []) ++
  (if space.max_blanks = 0 then [] else
    (charList space.possible_characters).flatMap (fun c =>
      match h : lookupChild t.children c with
      | none => []
      | some child => getPossibleChildren (path ++ [c]) child (space.cloneMinusCore 1 1)))
termination_by sizeOf t
decreasing_by exact lookupChild_sizeOf_node h

/-- Fuel-indexed structurally recursive twin of `getPossibleChildren`, used to
evaluate the search on concrete tries inside the kernel; `gpcFuel_eq` shows it
agrees with `getPossibleChildren` whenever the fuel covers the trie size. -/
def gpcFuel (fuel : Nat) (path : List Char) (t : DictionaryNode) (space : BlankSpace) :
    List (List Char × DictionaryNode) :=
  match fuel with
  | 0 => []
  | fuel + 1 =>
    (if space.min_blanks = 0 then [(path, t)] else []) ++
    (if space.max_blanks = 0 then [] else
      (charList space.possible_characters).flatMap (fun c =>
        match lookupChild t.children c with
        | none => []
        | some child => gpcFuel fuel (path ++ [c]) child (space.cloneMinusCore 1 1)))

theorem gpcFuel_eq : ∀ (fuel : Nat) (t : DictionaryNode), sizeOf t ≤ fuel →
    ∀ (path : List Char) (space : BlankSpace),
    gpcFuel fuel path t space = getPossibleChildren path t space := by
  intro fuel
  induction fuel with
  | zero =>
    intro t ht
    cases t with
    | mk w ch => simp at ht
  | succ n ih =>
    intro t ht path space
    rw [getPossibleChildren, gpcFuel]
    congr 1
    split
    · rfl
    · apply List.flatMap_congr
      intro c _
      cases hl : lookupChild t.children c with
      | none => simp
      | some child =>
        simp only []
        exact ih child (by have := lookupChild_sizeOf_node hl; omega) _ _

/-- Structured payload of `_raise_parse_error` (`parsers.py`): construct name,
offending input, message, character index. The Python code formats these four
components into the `ValueError` text. -/
structure ParseError where
  construct_name : String
  offending_input : List Char
  message : String
  char_index : Int
deriving DecidableEq

/-- Embedding of `_BRACKET_MATCHES[c]` for the three recognized openers. -/
def bracketMatch (c : Char) : Char :=
  if c = '[' then ']' else if c = '{' then '}' else ')'

/-- Index of the first occurrence of a character (`str.find` without the
`-1` encoding; `pyFind` adds it back). -/
def findCharIdx : List Char → Char → Option Nat
  | [], _ => none
  | c :: rest, t => if c = t then some 0 else (findCharIdx rest t).map (· + 1)

/-- Embedding of `str.find`: first index of the character, or `-1`. -/
def pyFind (l : List Char) (t : Char) : Int :=
  match findCharIdx l t with
  | some i => Int.ofNat i
  | none => -1

/-- Numeric value of a digit character. -/
def digitVal (c : Char) : Int := Int.ofNat (c.toNat - '0'.toNat)

/-- Value of a digit string read left to right, exactly as the manual
max-bound loop of `parse_blank_space` accumulates it. -/
def digitsVal (l : List Char) : Int :=
  l.foldl (fun acc c => acc * 10 + digitVal c) 0

/-- Embedding of Python `int(...)` for the strings this parser can pass it:
nonempty all-digit strings succeed with their decimal value, everything else
raises `ValueError` (modelled as `none`). -/
def pyInt (l : List Char) : Option Int :=
  if !l.isEmpty && l.all isDigitChar then some (digitsVal l) else none

/-- Embedding of the max-bound digit loop of `parse_blank_space` (lines
54-61): consume leading digits of `rest`, accumulating the value; returns the
accumulated value, the unconsumed remainder, and the updated index. -/
def readMaxDigits (rest : List Char) (index : Nat) (acc : Int) :
    Int × List Char × Nat :=
  match rest with
  | [] => (acc, [], index)
  | c :: rs =>
    if isDigitChar c then readMaxDigits rs (index + 1) (acc * 10 + digitVal c)
    else (acc, c :: rs, index)

/-- Embedding of the letter-consuming loop of `parse_blank_space` (lines
77-85): append each leading letter of `rest` to the class under construction;
when the end of the bracket body is reached the class is returned, and the
first non-letter raises the "Unexpected character" error. `index` tracks the
absolute position inside the bracket body for the error payload. -/
def appendChars (orig : List Char) (res : BlankSpace) (rest : List Char)
    (index : Nat) : Except ParseError BlankSpace :=
  match rest with
  | [] => .ok res
  | c :: rs =>
    if isLowerAlpha c then appendChars orig (res.append [c]) rs (index + 1)
    else .error ⟨"BlankSpace", orig, "Unexpected character", Int.ofNat index + 1⟩

/-- Error-propagating sequencing of parser stages (the Python control flow in
which a raised `ValueError` aborts the enclosing call). -/
def exBind {α β : Type} (x : Except ParseError α) (f : α → Except ParseError β) :
    Except ParseError β :=
  match x with
  | .error e => .error e
  | .ok a => f a

@[simp] theorem exBind_ok {α β : Type} (a : α) (f : α → Except ParseError β) :
    exBind (.ok a) f = f a := rfl

@[simp] theorem exBind_error {α β : Type} (e : ParseError) (f : α → Except ParseError β) :
    exBind (.error e) f = .error e := rfl

/-- Embedding of the minimum-bound portion of `parse_blank_space` (lines
36-46): a leading digit requires a comma somewhere in the body; the prefix
before the first comma is parsed by `int(...)` as the minimum. Returns the
minimum so far, the unconsumed remainder, and its absolute index. -/
def parseMinStage (orig : List Char) (inner : List Char) :
    Except ParseError (Int × List Char × Nat) :=
  if isDigitChar (inner.headD ' ') then
    match findCharIdx inner ',' with
    | none =>
      .error ⟨"BlankSpace", orig, "Missing comma in length bounds",
              Int.ofNat inner.length + 1⟩
    | some i =>
      match pyInt (inner.take i) with
      | none =>
        .error ⟨"BlankSpace", orig, "Could not parse a minimum bound",
                Int.ofNat i + 1⟩
      | some m => .ok (m, inner.drop i, i)
  else .ok (1, inner, 0)

/-- Embedding of the comma/maximum portion of `parse_blank_space` (lines
47-65): when the current character is a comma, a minimum at index 0 means "no
minimum given" (zero), and the digits after the comma (if any) give the
maximum, `-1` (unbounded) otherwise; without a comma the defaults stand. -/
def parseMaxStage (minlen0 maxDefault : Int) (rest0 : List Char) (index0 : Nat) :
    Int × Int × List Char × Nat :=
  if rest0.headD ' ' = ',' then
    let minlen := if index0 = 0 then 0 else minlen0
    match rest0.tail with
    | [] => (minlen, -1, [], index0 + 1)
    | c :: cr =>
      if isDigitChar c then
        let r := readMaxDigits (c :: cr) (index0 + 1) 0
        (minlen, r.1, r.2.1, r.2.2)
      else (minlen, -1, c :: cr, index0 + 1)
  else (minlen0, maxDefault, rest0, index0)

/-- Embedding of the bounds-parsing portion of `parse_blank_space` (lines
31-68): the minimum stage, the comma/maximum stage, then the
`-1 < maxlen < minlen` check. Returns the bounds together with the unconsumed
remainder of the bracket body and its absolute index. -/
def parseBoundsStage (orig : List Char) (is_filter : Bool) (inner : List Char) :
    Except ParseError (Int × Int × List Char × Nat) :=
  exBind (parseMinStage orig inner) (fun s1 =>
    let step2 := parseMaxStage s1.1 (if is_filter then -1 else 1) s1.2.1 s1.2.2
    if -1 < step2.2.1 ∧ step2.2.1 < step2.1 then
      .error ⟨"BlankSpace", orig, "Lower bound cannot be more than upper bound",
              Int.ofNat step2.2.2.2 + 1⟩
    else .ok step2)

/-- Embedding of the character-set portion of `parse_blank_space` (lines
70-89): an exhausted body means "only bounds given" (full alphabet), an
optional leading `^`/`!` negates, a sole negation marker ends the bracket, and
otherwise the letter loop runs on a fresh bracketed class. -/
def parseCharsStage (orig : List Char) (minlen maxlen : Int) (rest : List Char)
    (index : Nat) : Except ParseError BlankSpace :=
  match rest with
  | [] => .ok (mkBlankSpace true false minlen maxlen alphabetList)
  | c :: rs =>
    if c = '^' ∨ c = '!' then
      if rs.isEmpty then .ok (mkBlankSpace true true minlen maxlen [])
      else appendChars orig (mkBlankSpace true true minlen maxlen []) rs (index + 1)
    else appendChars orig (mkBlankSpace true false minlen maxlen []) (c :: rs) index

/-- Embedding of `parse_blank_space` (`parsers.py`): `None`/empty input yields
`None`; a single character must be a letter or underscore; longer input must
be a matched bracket group with a nonempty body, parsed by `parseBoundsStage`
then `parseCharsStage`. -/
def parseBlankSpace : Option (List Char) → Except ParseError (Option BlankSpace)
  | none => .ok none
  | some s =>
    if s.isEmpty then .ok none
    else
      let unknown := s.map pyLower
      if unknown.length = 1 then
        let c := unknown.headD ' '
        if c = '_' then .ok (some (mkBlankSpace false false 1 1 []))
        else if isLowerAlpha c then .ok (some (mkBlankSpace false false 1 1 [c]))
        else .error ⟨"BlankSpace", s,
                     "Single-character BlankSpace must be a letter or underscore", 0⟩
      else
        let bracket := unknown.headD ' '
        if bracket = '[' ∨ bracket = '{' ∨ bracket = '(' then
          let endBracket := unknown.getLast?.getD ' '
          if endBracket = bracketMatch bracket then
            let inner := (unknown.drop 1).dropLast
            if inner.isEmpty then
              .error ⟨"BlankSpace", s, "Missing characters inside bracket", 1⟩
            else
              exBind (parseBoundsStage s (bracket ≠ '[') inner) (fun r1 =>
                exBind (parseCharsStage s r1.1 r1.2.1 r1.2.2.1 r1.2.2.2) (fun r =>
                  .ok (some r)))
          else
            .error ⟨"BlankSpace", s, "Last character must match the starting bracket",
                    Int.ofNat unknown.length - 1⟩
        else
          .error ⟨"BlankSpace", s,
                  "Multiple character BlankSpace must start with an opening bracket", 0⟩

/-- Python step-1 slice `l[a:b]` with negative-index normalization. -/
def pySlice (l : List Char) (a b : Int) : List Char :=
  let n := l.length
  let norm : Int → Nat := fun x => if x < 0 then (n + x).toNat else min x.toNat n
  (l.take (norm b)).drop (norm a)

/-- Python indexing `l[i]` for the nonnegative indices reached by the word
parser's loop. -/
def pyGet (l : List Char) (i : Int) : Char := (l.get? i.toNat).getD ' '

/-- Raw result state of the `parse_unknown_word` loop: the collected spaces
(`parse_blank_space` can contribute a Python `None` via an empty slice), the
filter and its hardness. -/
structure ParsedWord where
  spaces : List (Option BlankSpace)
  filter : Option BlankSpace
  hard_filter : Bool
deriving DecidableEq

/-- Result of running `parse_unknown_word`: `diverged` models a
non-terminating run (fuel exhausted at every depth), `err` a structured parse
error, `raised` the constructor `ValueError`, and `done` a normal return
(`none` for `None`/empty input). -/
inductive WordParseOutcome where
  | diverged
  | err (e : ParseError)
  | raised (msg : String)
  | done (w : Option ParsedWord)
deriving DecidableEq

/-- Final `UnknownWord(spaces, filter, hard_filter)` construction at the end
of `parse_unknown_word`, with the constructor's bracketed-filter guard. -/
def mkParsedWord (spaces : List (Option BlankSpace)) (filter : Option BlankSpace)
    (hard_filter : Bool) : WordParseOutcome :=
  match filter with
  | some f => if !f.bracketed then .raised "A filter must be bracketed"
              else .done (some ⟨spaces, filter, hard_filter⟩)
  | none => .done (some ⟨spaces, none, hard_filter⟩)

/-- Embedding of the `while index < len(unknown)` loop of `parse_unknown_word`
(lines 100-118), with the loop index as a Python integer. Each iteration
either appends a parsed single-character space, parses a bracketed token found
via `find` (which yields `end_index = index - 1` when the closer is missing),
installs a filter (erroring unless it sits at the end), or raises on an
unexpected character. `fuel` bounds the number of iterations so that the
embedding is total; a run that exhausts every fuel value is a non-terminating
Python loop. -/
def parseWordLoop (orig unknown : List Char) :
    Nat → Int → List (Option BlankSpace) → Option BlankSpace → Bool →
    WordParseOutcome
  | 0, _, _, _, _ => .diverged
  | fuel + 1, index, spaces, filt, hard =>
    if index < (unknown.length : Int) then
      let c := pyGet unknown index
      if c = '_' ∨ isLowerAlpha c then
        match parseBlankSpace (some [c]) with
        | .error e => .err e
        | .ok sp => parseWordLoop orig unknown fuel (index + 1) (spaces ++ [sp]) filt hard
      else if c = '[' ∨ c = '{' ∨ c = '(' then
        let endIndex : Int := pyFind (unknown.drop index.toNat) (bracketMatch c) + index
        match parseBlankSpace (some (pySlice unknown index (endIndex + 1))) with
        | .error e => .err e
        | .ok space =>
          if c = '[' then
            parseWordLoop orig unknown fuel (endIndex + 1) (spaces ++ [space]) filt hard
          else if endIndex ≠ (unknown.length : Int) - 1 then
            .err ⟨"UnknownWord", orig, "Filter must be at the end of the word", endIndex⟩
          else
            parseWordLoop orig unknown fuel (endIndex + 1) spaces space (c = '{')
      else .err ⟨"UnknownWord", orig, "Unexpected character", index⟩
    else mkParsedWord spaces filt hard

/-- Embedding of `parse_unknown_word` (`parsers.py`): `None`/empty input
yields `None` before the loop runs; otherwise the lowered string is scanned by
`parseWordLoop` starting at index 0 with no spaces, no filter. -/
def parseUnknownWord (fuel : Nat) : Option (List Char) → WordParseOutcome
  | none => .done none
  | some s =>
    if s.isEmpty then .done none
    else parseWordLoop s (s.map pyLower) fuel 0 [] none false

/-- Decimal digit character of a value below ten, as Python `str` renders it. -/
def digitChar (n : Nat) : Char :=
  if n = 0 then '0' else if n = 1 then '1' else if n = 2 then '2'
  else if n = 3 then '3' else if n = 4 then '4' else if n = 5 then '5'
  else if n = 6 then '6' else if n = 7 then '7' else if n = 8 then '8' else '9'

/-- Decimal rendering of a natural number, as Python `str`. -/
def natDigits (n : Nat) : List Char :=
  if h : n < 10 then [digitChar n]
  else natDigits (n / 10) ++ [digitChar (n % 10)]
decreasing_by exact Nat.div_lt_self (by omega) (by omega)

/-- Embedding of Python `str` on an integer. -/
def pyIntRepr (i : Int) : List Char :=
  if i < 0 then '-' :: natDigits (-i).toNat else natDigits i.toNat

/-- Embedding of `BlankSpace.__repr__` (`word_objects.py`): a bare letter or
`_` for unbracketed non-negated singleton/full sets, otherwise a bracket body
made of an optional `min,max` prefix and the character list (`^` plus the
excluded letters when negated; omitted when it is the whole alphabet and
bounds are present). Set joins are rendered in sorted order: Python sorts
explicitly in the non-negated branch and joins the negated set in unspecified
order, which the round-trip property does not depend on. -/
def reprBlankSpace (b : BlankSpace) : List Char :=
  if !b.bracketed && !b.negated && b.possible_characters.card == 1 then
    [(charList b.possible_characters).headD ' ']
  else if !b.bracketed && !b.negated && b.possible_characters.card == 26 then
    ['_']
  else
    let char_str : List Char :=
      if b.negated then '^' :: charList (allCharacterSet \ b.possible_characters)
      else if !b.is_all_chars then charList b.possible_characters
      else alphabetList
    if b.min_blanks = 1 ∧ b.max_blanks = 1 then '[' :: char_str ++ [']']
    else
      let min_str := if b.min_blanks = 0 then [] else pyIntRepr b.min_blanks
      let max_str := if b.max_blanks = -1 then [] else pyIntRepr b.max_blanks
      '[' :: (min_str ++ [','] ++ max_str ++
        (if char_str = alphabetList then [] else char_str)) ++ [']']

section FieldLemmas

theorem append_bracketed (b : BlankSpace) (chars : List Char) :
    (b.append chars).bracketed = b.bracketed := by
  unfold BlankSpace.append BlankSpace.add BlankSpace.removeSet
  split <;> rfl

theorem append_negated (b : BlankSpace) (chars : List Char) :
    (b.append chars).negated = b.negated := by
  unfold BlankSpace.append BlankSpace.add BlankSpace.removeSet
  split <;> rfl

theorem append_min (b : BlankSpace) (chars : List Char) :
    (b.append chars).min_blanks = b.min_blanks := by
  unfold BlankSpace.append BlankSpace.add BlankSpace.removeSet
  split <;> rfl

theorem append_max (b : BlankSpace) (chars : List Char) :
    (b.append chars).max_blanks = b.max_blanks := by
  unfold BlankSpace.append BlankSpace.add BlankSpace.removeSet
  split <;> rfl

theorem append_possible (b : BlankSpace) (chars : List Char) :
    (b.append chars).possible_characters =
      if b.negated then b.possible_characters \ chars.toFinset
      else b.possible_characters ∪ chars.toFinset := by
  unfold BlankSpace.append BlankSpace.add BlankSpace.removeSet
  split <;> simp_all

@[simp] theorem mkBlankSpace_bracketed (br ng : Bool) (mn mx : Int) (chars : List Char) :
    (mkBlankSpace br ng mn mx chars).bracketed = br := by
  unfold mkBlankSpace; rw [append_bracketed]

@[simp] theorem mkBlankSpace_negated (br ng : Bool) (mn mx : Int) (chars : List Char) :
    (mkBlankSpace br ng mn mx chars).negated = ng := by
  unfold mkBlankSpace; rw [append_negated]

@[simp] theorem mkBlankSpace_min (br ng : Bool) (mn mx : Int) (chars : List Char) :
    (mkBlankSpace br ng mn mx chars).min_blanks = mn := by
  unfold mkBlankSpace; rw [append_min]

@[simp] theorem mkBlankSpace_max (br ng : Bool) (mn mx : Int) (chars : List Char) :
    (mkBlankSpace br ng mn mx chars).max_blanks = mx := by
  unfold mkBlankSpace; rw [append_max]

theorem mkBlankSpace_possible_neg (br : Bool) (mn mx : Int) (chars : List Char) :
    (mkBlankSpace br true mn mx chars).possible_characters =
      allCharacterSet \ chars.toFinset := by
  unfold mkBlankSpace; rw [append_possible] <;> simp

theorem mkBlankSpace_possible_pos (br : Bool) (mn mx : Int) (chars : List Char) :
    (mkBlankSpace br false mn mx chars).possible_characters =
      (if !br && chars.isEmpty then allCharacterSet else ∅) ∪ chars.toFinset := by
  unfold mkBlankSpace; rw [append_possible] <;> simp

theorem cloneMinusCore_eq (b : BlankSpace) (smin smax : Int) :
    b.cloneMinusCore smin smax =
      { bracketed := b.bracketed, negated := b.negated,
        min_blanks := max 0 (b.min_blanks - smax),
        max_blanks := if b.max_blanks = -1 then -1 else b.max_blanks - smin,
        possible_characters := b.possible_characters } := by
  unfold BlankSpace.cloneMinusCore
  have h1 := mkBlankSpace_bracketed b.bracketed b.negated
    (max 0 (b.min_blanks - smax)) (if b.max_blanks = -1 then -1 else b.max_blanks - smin) []
  have h2 := mkBlankSpace_negated b.bracketed b.negated
    (max 0 (b.min_blanks - smax)) (if b.max_blanks = -1 then -1 else b.max_blanks - smin) []
  have h3 := mkBlankSpace_min b.bracketed b.negated
    (max 0 (b.min_blanks - smax)) (if b.max_blanks = -1 then -1 else b.max_blanks - smin) []
  have h4 := mkBlankSpace_max b.bracketed b.negated
    (max 0 (b.min_blanks - smax)) (if b.max_blanks = -1 then -1 else b.max_blanks - smin) []
  cases hmk : mkBlankSpace b.bracketed b.negated (max 0 (b.min_blanks - smax))
    (if b.max_blanks = -1 then -1 else b.max_blanks - smin) []
  rw [hmk] at h1 h2 h3 h4
  simp_all

end FieldLemmas

/-- C10: given `None` or the empty string, `parse_blank_space` and
`parse_unknown_word` each return `None` rather than raising a parse error or
returning a class/pattern — empty input is not treated as malformed
notation. (The word parser's answer is independent of the loop fuel because
the empty-input check precedes the loop.) -/
theorem claim_C10 :
    parseBlankSpace none = .ok none ∧
    parseBlankSpace (some []) = .ok none ∧
    (∀ fuel : Nat, parseUnknownWord fuel none = .done none) ∧
    (∀ fuel : Nat, parseUnknownWord fuel (some []) = .done none) :=
  ⟨rfl, rfl, fun _ => rfl, fun _ => rfl⟩

/-- Witness for C10 at concrete fuel values. -/
theorem claim_C10_witness :
    parseUnknownWord 7 none = .done none ∧ parseUnknownWord 7 (some []) = .done none :=
  ⟨claim_C10.2.2.1 7, claim_C10.2.2.2 7⟩

/-- Counterexample for C3: the claim says the constructor raises on
`min_blanks > max_blanks >= 0`, but `BlankSpace.__init__` has no raise path at
all — it returns an instance carrying the invalid bounds unchanged
(`BlankSpace(True, False, 5, 3)` is constructed with `min_blanks = 5`,
`max_blanks = 3`). -/
theorem claim_C3_counterexample :
    (mkBlankSpace true false 5 3 []).min_blanks = 5 ∧
    (mkBlankSpace true false 5 3 []).max_blanks = 3 := by decide

/-- C3 (amended): the constructor performs no bounds validation for any
combination of flags and bounds — the produced instance stores exactly the
given `min_blanks` and `max_blanks`; combinations with `min > max >= 0` are
rejected only by `parse_blank_space` (its explicit `-1 < maxlen < minlen`
check), as the accompanying conjunct shows on the notation `[5,3ab]`. -/
theorem claim_C3 :
    (∀ (bracketed negated : Bool) (mn mx : Int) (chars : List Char),
      (mkBlankSpace bracketed negated mn mx chars).min_blanks = mn ∧
      (mkBlankSpace bracketed negated mn mx chars).max_blanks = mx) ∧
    parseBlankSpace (some "[5,3ab]".toList) =
      .error ⟨"BlankSpace", "[5,3ab]".toList,
              "Lower bound cannot be more than upper bound", 4⟩ := by
  refine ⟨fun bracketed negated mn mx chars => ⟨?_, ?_⟩, by decide⟩
  · simp
  · simp

/-- Witness for C3 at a concrete instance. -/
theorem claim_C3_witness :
    (mkBlankSpace false true 2 7 ['q']).min_blanks = 2 ∧
    (mkBlankSpace false true 2 7 ['q']).max_blanks = 7 :=
  claim_C3.1 false true 2 7 ['q']

/-- Counterexample for C5: `reduced_by(3, 6)` on a class with `min_reps = 5`,
`max_reps = 10` does not produce `max_reps = 4`: `clone_minus` computes
`new_max = max_blanks - sub_min = 10 - 3 = 7`. -/
theorem claim_C5_counterexample :
    ¬ (((mkBlankSpace true false 5 10 ['a', 'b']).cloneMinusCore 3 6).min_blanks = 0 ∧
       ((mkBlankSpace true false 5 10 ['a', 'b']).cloneMinusCore 3 6).max_blanks = 4) := by
  decide

/-- C5 (amended): `reduced_by(3, 6)` on a class with `min_reps = 5` and
`max_reps = 10` yields `min_reps = max(0, 5 - 6) = 0` and
`max_reps = 10 - 3 = 7`, keeping the character set. -/
theorem claim_C5 :
    (mkBlankSpace true false 5 10 ['a', 'b']).clone_minus 3 (some 6) =
      .ok (mkBlankSpace true false 0 7 ['a', 'b']) := by decide

/-- Concrete word pattern exhibiting the C4 defect: the notation `_{a}`
(one arbitrary letter, soft-style unbounded filter over `{a}`; a filter group
without explicit bounds defaults to `min_reps = 1`, `max_reps` unbounded). -/
def wordC4 : UnknownWord :=
  { spaces := [mkBlankSpace false false 1 1 []],
    filter := some (mkBlankSpace true false 1 (-1) ['a']),
    hard_filter := true }

/-- C4 is a code bug: for the pattern `_{a}` the computed length bounds are
`(1, 1)` and the filter interval is `[1, unbounded]`, so by the claim (and the
method's own docstring) the word is possible; but `is_possible` compares
against the `-1` sentinel with plain integer `<=`, so both endpoint checks
fail and it returns `False`. The parser really produces this pattern from the
notation `_{a}`, as the last conjunct shows. -/
theorem claim_C4_eval :
    wordC4.is_possible = false ∧
    wordC4.calc_length_bounds = (1, 1) ∧
    wordC4.filter = some (mkBlankSpace true false 1 (-1) ['a']) ∧
    (mkBlankSpace true false 1 (-1) ['a']).min_blanks ≤ 1 ∧
    (mkBlankSpace true false 1 (-1) ['a']).max_blanks = -1 ∧
    parseUnknownWord 9 (some "_{a}".toList) =
      .done (some { spaces := [some (mkBlankSpace false false 1 1 [])],
                    filter := some (mkBlankSpace true false 1 (-1) ['a']),
                    hard_filter := true }) := by decide

/-- C6: for any class with `max_reps != 0`, `reduced_by` returns a new class
with `new_min = max(0, min_reps - sub_max)`, `new_max` unbounded when
`max_reps` is unbounded and otherwise `max_reps - sub_min`, and the same
character set; for a class with `max_reps = 0` it raises; and `[3,5]` reduced
by `(1,1)` yields `[2,4]`. -/
theorem claim_C6 :
    (∀ (b : BlankSpace) (sub_min : Int) (sub_max : Option Int),
      b.max_blanks ≠ 0 →
      b.clone_minus sub_min sub_max =
        .ok { bracketed := b.bracketed, negated := b.negated,
              min_blanks := max 0 (b.min_blanks - (sub_max.getD sub_min)),
              max_blanks := if b.max_blanks = -1 then -1 else b.max_blanks - sub_min,
              possible_characters := b.possible_characters }) ∧
    (∀ (b : BlankSpace) (sub_min : Int) (sub_max : Option Int),
      b.max_blanks = 0 → ∃ msg, b.clone_minus sub_min sub_max = .error msg) ∧
    (mkBlankSpace true false 3 5 ['a', 'b']).clone_minus 1 none =
      .ok (mkBlankSpace true false 2 4 ['a', 'b']) := by
  refine ⟨?_, ?_, by decide⟩
  · intro b sub_min sub_max h
    have hne : (b.max_blanks == 0) = false := by simpa using h
    simp [BlankSpace.clone_minus, BlankSpace.is_empty, hne, cloneMinusCore_eq]
  · intro b sub_min sub_max h
    have he : (b.max_blanks == 0) = true := by simpa using h
    exact ⟨"Cannot create a new BlankSpace with less spaces than none",
           by simp [BlankSpace.clone_minus, BlankSpace.is_empty, he]⟩

/-- Witness for C6 at a concrete class and reduction. -/
theorem claim_C6_witness :
    (mkBlankSpace true true 4 9 ['x']).max_blanks ≠ 0 ∧
    (mkBlankSpace true true 4 9 ['x']).clone_minus 2 (some 3) =
      .ok (mkBlankSpace true true 1 7 ['x']) ∧
    (mkBlankSpace true false 1 0 []).max_blanks = 0 ∧
    (∃ msg, (mkBlankSpace true false 1 0 []).clone_minus 1 none = .error msg) := by
  refine ⟨by decide, ?_, by decide, claim_C6.2.1 _ 1 none (by decide)⟩
  have h := claim_C6.1 (mkBlankSpace true true 4 9 ['x']) 2 (some 3) (by decide)
  rw [h]
  decide

theorem sdiff_sdiff_of_subset {s fc : Finset Char} (hsub : s ⊆ allCharacterSet) :
    s \ (allCharacterSet \ fc) = s ∩ fc := by
  ext x
  simp only [Finset.mem_sdiff, Finset.mem_inter, not_and, not_not]
  constructor
  · rintro ⟨hx, h2⟩
    exact ⟨hx, h2 (hsub hx)⟩
  · rintro ⟨hx, h2⟩
    exact ⟨hx, fun _ => h2⟩

/-- C7: `apply_filter` intersects the class's character set with the filter
set exactly when (hard AND (bracketed OR more than one character)) OR
(soft AND unbracketed AND more than one character), and leaves the set
unchanged otherwise; applying a soft filter to a bracketed `{a,b}` leaves it
`{a,b}`, while a hard filter with set `{b,c}` narrows the same class to
`{b}`. The class's character set is a subset of the alphabet (a constructor
invariant of every class built from notation), which makes the code's
`remove(all - filter_chars)` an intersection with `filter_chars`. -/
theorem claim_C7 :
    (∀ (b : BlankSpace) (filter_chars : Finset Char) (hard : Bool),
      b.possible_characters ⊆ allCharacterSet →
      (b.apply_filter filter_chars hard).possible_characters =
        (if (hard = true ∧ (b.bracketed = true ∨ 1 < b.possible_characters.card))
            ∨ (hard = false ∧ b.bracketed = false ∧ 1 < b.possible_characters.card)
         then b.possible_characters ∩ filter_chars
         else b.possible_characters)) ∧
    ((mkBlankSpace true false 1 1 ['a', 'b']).apply_filter {'b', 'c'} false).possible_characters
      = ({'a', 'b'} : Finset Char) ∧
    ((mkBlankSpace true false 1 1 ['a', 'b']).apply_filter {'b', 'c'} true).possible_characters
      = ({'b'} : Finset Char) := by
  refine ⟨?_, by decide, by decide⟩
  intro b filter_chars hard hsub
  unfold BlankSpace.apply_filter BlankSpace.removeSet
  rcases hard with _ | _ <;> rcases hbr : b.bracketed with _ | _ <;>
    by_cases hcard : 1 < b.possible_characters.card <;>
    simp [hbr, hcard, sdiff_sdiff_of_subset hsub]

/-- Witness for C7 at a concrete class and filter. -/
theorem claim_C7_witness :
    (mkBlankSpace false false 1 1 []).possible_characters ⊆ allCharacterSet ∧
    ((mkBlankSpace false false 1 1 []).apply_filter {'x', 'y'} false).possible_characters
      = (if (false = true ∧ ((mkBlankSpace false false 1 1 []).bracketed = true ∨
              1 < (mkBlankSpace false false 1 1 []).possible_characters.card))
            ∨ (false = false ∧ (mkBlankSpace false false 1 1 []).bracketed = false ∧
              1 < (mkBlankSpace false false 1 1 []).possible_characters.card)
         then (mkBlankSpace false false 1 1 []).possible_characters ∩ {'x', 'y'}
         else (mkBlankSpace false false 1 1 []).possible_characters) :=
  ⟨by decide, claim_C7.1 (mkBlankSpace false false 1 1 []) {'x', 'y'} false (by decide)⟩

/-- Key divergence lemma for C2: when the word-parser loop stands on a `[`
whose matching `]` never occurs in the rest of the input, `str.find` returns
`-1`, so `end_index = index - 1`, the slice handed to `parse_blank_space` is
empty (yielding a Python `None` appended to the spaces), and after `index =
end_index; index += 1` the loop is back at the same index: the loop never
terminates, whatever the fuel. -/
theorem parseWordLoop_stuck (orig unknown : List Char) (i : Nat)
    (hc : unknown.get? i = some '[')
    (hnf : findCharIdx (unknown.drop i) ']' = none) :
    ∀ (fuel : Nat) (spaces : List (Option BlankSpace)) (filt : Option BlankSpace)
      (hard : Bool),
      parseWordLoop orig unknown fuel (i : Int) spaces filt hard = .diverged := by
  intro fuel
  induction fuel with
  | zero => intro spaces filt hard; rfl
  | succ n ih =>
    intro spaces filt hard
    have hlen : i < unknown.length := by
      by_contra hx
      rw [List.get?_eq_none.2 (by omega)] at hc
      exact Option.noConfusion hc
    have hlt : ((i : Int)) < (unknown.length : Int) := by exact_mod_cast hlen
    have hget : pyGet unknown (i : Int) = '[' := by
      rw [List.get?_eq_getElem?] at hc
      simp [pyGet, Int.toNat_natCast, hc]
    have hbm : bracketMatch '[' = ']' := rfl
    have hfind : pyFind (unknown.drop ((i : Int)).toNat) ']' = -1 := by
      rw [Int.toNat_natCast]
      simp [pyFind, hnf]
    have hno : ¬(('[' : Char) = '_' ∨ isLowerAlpha '[' = true) := by decide
    have harith : (-1 : Int) + (i : Int) + 1 = (i : Int) := by ring
    have hslice : pySlice unknown (i : Int) (i : Int) = [] := by
      unfold pySlice
      have h0 : ¬ (((i : Int)) < 0) := by omega
      simp only [h0, if_false, Int.toNat_natCast]
      apply List.drop_eq_nil_of_le
      simp [List.length_take]
    simp only [parseWordLoop, hlt, if_true, hget, hno, hbm, hfind, harith, hslice,
               parseBlankSpace, List.isEmpty_nil, if_false,
               show (('[' : Char) = '[' ∨ ('[' : Char) = '{' ∨ ('[' : Char) = '(') from
                 Or.inl rfl,
               show (('[' : Char) = '[') = True from by simp]
    exact ih (spaces ++ [none]) filt hard

/-- C2 is a code bug for the `[` opener: on the input `"[abc"` the loop never
terminates (for every iteration budget the run is still unfinished), so
`parse_unknown_word` neither returns nor raises; the claim says it must
terminate with a structured error. For the `{` and `(` openers the
misplaced-filter check does terminate the loop with a structured error, as
the final conjuncts record. -/
theorem claim_C2_eval :
    (∀ fuel : Nat, parseUnknownWord fuel (some "[abc".toList) = .diverged) ∧
    parseUnknownWord 9 (some "\x7babc".toList) =
      .err ⟨"UnknownWord", "\x7babc".toList, "Filter must be at the end of the word", -1⟩ ∧
    parseUnknownWord 9 (some "(abc".toList) =
      .err ⟨"UnknownWord", "(abc".toList, "Filter must be at the end of the word", -1⟩ := by
  refine ⟨?_, by decide, by decide⟩
  intro fuel
  have h := parseWordLoop_stuck "[abc".toList ("[abc".toList.map pyLower) 0
    (by decide) (by decide) fuel [] none false
  simpa [parseUnknownWord] using h

/-- Witness for C2 at a concrete fuel value. -/
theorem claim_C2_eval_witness : parseUnknownWord 11 (some "[abc".toList) = .diverged :=
  claim_C2_eval.1 11

theorem lookupChild_mem {ch : List (Char × DictionaryNode)} {c : Char}
    {t : DictionaryNode} (h : lookupChild ch c = some t) : (c, t) ∈ ch := by
  induction ch with
  | nil => simp [lookupChild] at h
  | cons hd tl ih =>
    obtain ⟨d, u⟩ := hd
    rw [lookupChild] at h
    split at h
    · cases h
      subst_vars
      exact List.mem_cons_self _ _
    · exact List.mem_cons_of_mem _ (ih h)

theorem foldl_max_init_le (l : List Nat) : ∀ a : Nat, a ≤ l.foldl max a := by
  induction l with
  | nil => intro a; simp
  | cons hd tl ih =>
    intro a
    exact le_trans (le_max_left a hd) (ih (max a hd))

theorem le_foldl_max (l : List Nat) (a : Nat) : ∀ x ∈ l, x ≤ l.foldl max a := by
  induction l generalizing a with
  | nil => intro x hx; simp at hx
  | cons hd tl ih =>
    intro x hx
    rcases List.mem_cons.1 hx with rfl | hx'
    · exact le_trans (le_max_right a x) (foldl_max_init_le tl (max a x))
    · exact ih (max a hd) x hx'

theorem maxLayersBelow_child {t child : DictionaryNode} {c : Char}
    (h : lookupChild t.children c = some child) :
    maxLayersBelow child + 1 ≤ maxLayersBelow t := by
  cases t with
  | mk w ch =>
    have hmem : (c, child) ∈ ch := lookupChild_mem h
    rw [maxLayersBelow]
    apply le_foldl_max
    exact List.mem_map.2 ⟨⟨(c, child), hmem⟩, List.mem_attach _ _, rfl⟩

/-- Per-element facts about the fuel-indexed search: every yielded pair is a
subtree of the start node whose path extends the start path by at most
`max_blanks` characters (when that bound is nonnegative) and by at most the
number of trie layers below the start node. -/
theorem gpcFuel_mem_facts :
    ∀ (fuel : Nat) (t : DictionaryNode) (space : BlankSpace) (path p : List Char)
      (n : DictionaryNode), (p, n) ∈ gpcFuel fuel path t space →
      sizeOf n ≤ sizeOf t ∧
      ∃ q, p = path ++ q ∧ q.length ≤ maxLayersBelow t ∧
        (0 ≤ space.max_blanks → (q.length : Int) ≤ space.max_blanks) := by
  intro fuel
  induction fuel with
  | zero =>
    intro t space path p n h
    simp [gpcFuel] at h
  | succ f ih =>
    intro t space path p n h
    rw [gpcFuel] at h
    rcases List.mem_append.1 h with h1 | h2
    · by_cases hmin : space.min_blanks = 0
      · simp only [hmin, if_true, List.mem_singleton] at h1
        obtain ⟨rfl, rfl⟩ := Prod.mk.injEq _ _ _ _ ▸ h1
        refine ⟨le_rfl, [], by simp, by simp, fun h0 => by simpa using h0⟩
      · simp [hmin] at h1
    · by_cases hmax : space.max_blanks = 0
      · simp [hmax] at h2
      · simp only [hmax, if_false, List.mem_flatMap] at h2
        obtain ⟨c, hc, hmem2⟩ := h2
        cases hl : lookupChild t.children c with
        | none => rw [hl] at hmem2; simp at hmem2
        | some child =>
          rw [hl] at hmem2
          simp only [] at hmem2
          obtain ⟨hsz, q', hq', hlen', hint'⟩ := ih child _ _ _ _ hmem2
          have hszc : sizeOf child < sizeOf t := lookupChild_sizeOf_node hl
          refine ⟨by omega, c :: q', by simpa [List.append_assoc] using hq', ?_, ?_⟩
          · have := maxLayersBelow_child hl
            simp only [List.length_cons]
            omega
          · intro h0
            have h1le : 1 ≤ space.max_blanks := by
              rcases lt_or_eq_of_le h0 with hlt | heq
              · omega
              · exact absurd heq.symm hmax
            have hmax' : (space.cloneMinusCore 1 1).max_blanks = space.max_blanks - 1 := by
              rw [cloneMinusCore_eq]
              simp only []
              rw [if_neg (by omega)]
            have := hint' (by omega : 0 ≤ (space.cloneMinusCore 1 1).max_blanks)
            rw [hmax'] at this
            simp only [List.length_cons]
            push_cast
            push_cast at this
            omega

/-- C8: every node yielded by `get_possible_children` lies at depth at most
`max_blanks` below the start node when that bound is finite (nonnegative), and
in every case at most the number of trie layers below the start node — the
bounded branching depth-first search cannot descend past existing children,
and the embedding is a total function, so the search terminates with a finite
list on every finite trie, including unbounded (`max_blanks = -1`) classes. -/
theorem claim_C8 (t : DictionaryNode) (space : BlankSpace) (path p : List Char)
    (n : DictionaryNode) (hmem : (p, n) ∈ getPossibleChildren path t space) :
    ∃ q, p = path ++ q ∧ q.length ≤ maxLayersBelow t ∧
      (0 ≤ space.max_blanks → (q.length : Int) ≤ space.max_blanks) := by
  rw [← gpcFuel_eq (sizeOf t) t le_rfl] at hmem
  exact (gpcFuel_mem_facts (sizeOf t) t space path p n hmem).2

/-- Witness for C8 on a concrete one-word trie and a singular class. -/
theorem claim_C8_witness :
    ((['a'], DictionaryNode.mk true []) ∈
      getPossibleChildren [] (DictionaryNode.mk false [('a', DictionaryNode.mk true [])])
        (mkBlankSpace false false 1 1 ['a'])) ∧
    (∃ q, (['a'] : List Char) = [] ++ q ∧
      q.length ≤ maxLayersBelow (DictionaryNode.mk false [('a', DictionaryNode.mk true [])]) ∧
      (0 ≤ (mkBlankSpace false false 1 1 ['a']).max_blanks →
        (q.length : Int) ≤ (mkBlankSpace false false 1 1 ['a']).max_blanks)) := by
  have hval : gpcFuel 1000 [] (DictionaryNode.mk false [('a', DictionaryNode.mk true [])])
      (mkBlankSpace false false 1 1 ['a']) = [(['a'], DictionaryNode.mk true [])] := rfl
  have hmem : (['a'], DictionaryNode.mk true []) ∈
      getPossibleChildren [] (DictionaryNode.mk false [('a', DictionaryNode.mk true [])])
        (mkBlankSpace false false 1 1 ['a']) := by
    rw [← gpcFuel_eq 1000 _ (by decide), hval]
    exact List.mem_singleton.2 rfl
  exact ⟨hmem, claim_C8 _ _ _ _ _ hmem⟩

/-- Modelled from the spec: the unit-threading matcher driver is not part of
the three core source files (only `get_possible_children` and
`get_effective_spaces` are); per the spec, composing `match` over a
WordPattern's `effective_units()` in sequence — threading the current node
through each unit's `match` — yields all trie nodes satisfying the whole
pattern. Each node carries its root-to-node path. -/
def matchWordNodes (root : DictionaryNode) (w : UnknownWord) :
    List (List Char × DictionaryNode) :=
  w.get_effective_spaces.foldl
    (fun acc space => acc.flatMap (fun pr => getPossibleChildren pr.1 pr.2 space))
    [([], root)]

/-- Modelled from the spec: filtering the nodes reached by the whole pattern
by `is_word` yields the matching dictionary words (each node's word being its
root-to-node path). -/
def matchWords (root : DictionaryNode) (w : UnknownWord) : List String :=
  ((matchWordNodes root w).filter (fun pr => pr.2.is_word)).map
    (fun pr => String.mk pr.1)

/-- Fuel-indexed twin of `matchWordNodes` for kernel evaluation. -/
def matchNodesFuel (fuel : Nat) (root : DictionaryNode) (w : UnknownWord) :
    List (List Char × DictionaryNode) :=
  w.get_effective_spaces.foldl
    (fun acc space => acc.flatMap (fun pr => gpcFuel fuel pr.1 pr.2 space))
    [([], root)]

theorem foldl_gpc_eq (fuel : Nat) :
    ∀ (spaces : List BlankSpace) (acc : List (List Char × DictionaryNode)),
    (∀ pr ∈ acc, sizeOf (Prod.snd pr) ≤ fuel) →
    spaces.foldl
      (fun acc space => acc.flatMap (fun pr => getPossibleChildren pr.1 pr.2 space)) acc =
    spaces.foldl
      (fun acc space => acc.flatMap (fun pr => gpcFuel fuel pr.1 pr.2 space)) acc := by
  intro spaces
  induction spaces with
  | nil => intro acc hacc; rfl
  | cons sp rest ih =>
    intro acc hacc
    simp only [List.foldl_cons]
    have hflat : acc.flatMap (fun pr => getPossibleChildren pr.1 pr.2 sp) =
        acc.flatMap (fun pr => gpcFuel fuel pr.1 pr.2 sp) := by
      apply List.flatMap_congr
      intro pr hpr
      exact (gpcFuel_eq fuel pr.2 (hacc pr hpr) pr.1 sp).symm
    rw [← hflat]
    apply ih
    intro pr' hpr'
    obtain ⟨pr, hpr, hmem⟩ := List.mem_flatMap.1 hpr'
    have hsz := (gpcFuel_mem_facts fuel pr.2 sp pr.1 pr'.1 pr'.2 (by
      rw [gpcFuel_eq fuel pr.2 (hacc pr hpr) pr.1 sp]
      simpa using hmem)).1
    exact le_trans hsz (hacc pr hpr)

theorem matchWordNodes_eq_fuel (fuel : Nat) (root : DictionaryNode) (w : UnknownWord)
    (h : sizeOf root ≤ fuel) : matchWordNodes root w = matchNodesFuel fuel root w := by
  unfold matchWordNodes matchNodesFuel
  apply foldl_gpc_eq
  intro pr hpr
  rcases List.mem_singleton.1 hpr with rfl
  exact h

/-- Trie built from the word list `{"cat", "ca", "caat", "cab"}` by
`create_dict_trie`. -/
def trieC1 : DictionaryNode :=
  createDictTrie ["cat".toList, "ca".toList, "caat".toList, "cab".toList]

/-- The pattern `c[1,2a]t` as `parse_unknown_word` produces it: a literal `c`,
one-or-two letters from `{a}`, a literal `t`; no filter. -/
def wordC1 : UnknownWord :=
  { spaces := [mkBlankSpace false false 1 1 ['c'],
               mkBlankSpace true false 1 2 ['a'],
               mkBlankSpace false false 1 1 ['t']],
    filter := none,
    hard_filter := false }

theorem matchWords_C1 : matchWords trieC1 wordC1 = ["cat", "caat"] := by
  unfold matchWords
  rw [matchWordNodes_eq_fuel 2000 trieC1 wordC1 (by decide)]
  rfl

/-- Counterexample for C1: on the trie built from
`{"cat", "ca", "caat", "cab"}`, the pattern `c[1,2a]t` does not yield exactly
`{"cat"}` — the `[1,2a]` unit may consume two letters, so `"caat"` also
matches. The pattern really parses to the three units of `wordC1`, as the
final conjunct shows. -/
theorem claim_C1_counterexample :
    (matchWords trieC1 wordC1).toFinset ≠ ({"cat"} : Finset String) ∧
    parseUnknownWord 20 (some "c[1,2a]t".toList) =
      .done (some { spaces := [some (mkBlankSpace false false 1 1 ['c']),
                               some (mkBlankSpace true false 1 2 ['a']),
                               some (mkBlankSpace false false 1 1 ['t'])],
                    filter := none, hard_filter := false }) := by
  refine ⟨?_, by decide⟩
  rw [matchWords_C1]
  decide

/-- C1 (amended): for the trie built from `{"cat", "ca", "caat", "cab"}`,
matching the pattern `c[1,2a]t` (threading the trie root through `match` of
each effective unit in sequence, then keeping final nodes marked `is_word`)
yields exactly the word set `{"cat", "caat"}`. -/
theorem claim_C1 :
    matchWords trieC1 wordC1 = ["cat", "caat"] ∧
    (matchWords trieC1 wordC1).toFinset = ({"cat", "caat"} : Finset String) := by
  refine ⟨matchWords_C1, ?_⟩
  rw [matchWords_C1]
  decide

section RoundTripHelpers

theorem lower_facts {c : Char} (h : isLowerAlpha c = true) :
    isDigitChar c = false ∧ c ≠ ',' ∧ c ≠ '^' ∧ c ≠ '!' ∧ c ≠ '_' ∧ pyLower c = c := by
  unfold isLowerAlpha at h
  rw [Bool.and_eq_true, decide_eq_true_eq, decide_eq_true_eq] at h
  obtain ⟨h1, h2⟩ := h
  refine ⟨?_, ?_, ?_, ?_, ?_, ?_⟩
  · unfold isDigitChar
    have hnine : ¬ (c ≤ '9') := fun hc => absurd (le_trans h1 hc) (by decide)
    simp [hnine]
  · rintro rfl; exact absurd h1 (by decide)
  · rintro rfl; exact absurd h1 (by decide)
  · rintro rfl; exact absurd h1 (by decide)
  · rintro rfl; exact absurd h1 (by decide)
  · unfold pyLower
    rw [if_neg]
    rintro ⟨_, hz⟩
    exact absurd (le_trans h1 hz) (by decide)

theorem digit_facts {c : Char} (h : isDigitChar c = true) :
    isLowerAlpha c = false ∧ c ≠ ',' ∧ pyLower c = c := by
  unfold isDigitChar at h
  rw [Bool.and_eq_true, decide_eq_true_eq, decide_eq_true_eq] at h
  obtain ⟨h1, h2⟩ := h
  refine ⟨?_, ?_, ?_⟩
  · unfold isLowerAlpha
    have ha : ¬ ('a' ≤ c) := fun hc => absurd (le_trans hc h2) (by decide)
    simp [ha]
  · rintro rfl; exact absurd h1 (by decide)
  · unfold pyLower
    rw [if_neg]
    rintro ⟨hA, _⟩
    exact absurd (le_trans hA h2) (by decide)

theorem map_pyLower_id {l : List Char} (h : ∀ c ∈ l, pyLower c = c) :
    l.map pyLower = l := by
  induction l with
  | nil => rfl
  | cons c cs ih =>
    rw [List.map_cons, h c (List.mem_cons_self c cs),
        ih (fun d hd => h d (List.mem_cons_of_mem c hd))]

theorem alphabetList_lower : ∀ c ∈ alphabetList, isLowerAlpha c = true := by decide

theorem mem_allCharacterSet_lower {c : Char} (h : c ∈ allCharacterSet) :
    isLowerAlpha c = true :=
  alphabetList_lower c (List.mem_toFinset.1 h)

theorem mem_charList {s : Finset Char} {c : Char} : c ∈ charList s ↔ c ∈ s := by
  obtain ⟨m, hnodup⟩ := s
  induction m using Quot.ind with
  | _ l =>
    show c ∈ l.insertionSort (· ≤ ·) ↔ _
    rw [(List.perm_insertionSort (· ≤ ·) l).mem_iff]
    simp [Finset.mem_mk]

theorem charList_toFinset (s : Finset Char) : (charList s).toFinset = s := by
  ext c
  rw [List.mem_toFinset, mem_charList]

theorem charList_coe (s : Finset Char) : ((charList s : List Char) : Multiset Char) = s.val := by
  obtain ⟨m, hnodup⟩ := s
  induction m using Quot.ind with
  | _ l => exact Quot.sound (List.perm_insertionSort _ l)

theorem charList_singleton (a : Char) : charList ({a} : Finset Char) = [a] := by
  have h := charList_coe ({a} : Finset Char)
  rw [Finset.singleton_val, ← Multiset.coe_singleton, Multiset.coe_eq_coe] at h
  exact List.perm_singleton.1 h

theorem charList_eq_nil {s : Finset Char} : charList s = [] ↔ s = ∅ := by
  constructor
  · intro h
    ext c
    simp only [Finset.not_mem_empty, iff_false]
    intro hc
    rw [← mem_charList (s := s), h] at hc
    exact List.not_mem_nil c hc
  · rintro rfl
    have h := charList_coe (∅ : Finset Char)
    simpa using h

theorem charList_lower {s : Finset Char} (hsub : s ⊆ allCharacterSet) :
    ∀ c ∈ charList s, isLowerAlpha c = true := fun c hc =>
  mem_allCharacterSet_lower (hsub (mem_charList.1 hc))

theorem digitChar_digit (m : Nat) : isDigitChar (digitChar m) = true := by
  unfold digitChar
  split_ifs <;> decide

theorem natDigits_digits (n : Nat) : ∀ d ∈ natDigits n, isDigitChar d = true := by
  induction n using Nat.strong_induction_on with
  | _ n ih =>
    rw [natDigits]
    split_ifs with h
    · intro d hd
      rcases List.mem_singleton.1 hd with rfl
      exact digitChar_digit n
    · intro d hd
      rcases List.mem_append.1 hd with h1 | h2
      · exact ih (n / 10) (Nat.div_lt_self (by omega) (by omega)) d h1
      · rcases List.mem_singleton.1 h2 with rfl
        exact digitChar_digit (n % 10)

theorem natDigits_ne_nil (n : Nat) : natDigits n ≠ [] := by
  rw [natDigits]
  split_ifs <;> simp

theorem digitVal_digitChar {m : Nat} (h : m < 10) : digitVal (digitChar m) = (m : Int) := by
  interval_cases m <;> decide

theorem digitsVal_append (l : List Char) (c : Char) :
    digitsVal (l ++ [c]) = digitsVal l * 10 + digitVal c := by
  unfold digitsVal
  rw [List.foldl_append]
  rfl

theorem digitsVal_natDigits (n : Nat) : digitsVal (natDigits n) = (n : Int) := by
  induction n using Nat.strong_induction_on with
  | _ n ih =>
    rw [natDigits]
    split_ifs with h
    · show digitsVal [digitChar n] = (n : Int)
      unfold digitsVal
      simp [digitVal_digitChar h]
    · rw [digitsVal_append, ih (n / 10) (Nat.div_lt_self (by omega) (by omega)),
          digitVal_digitChar (Nat.mod_lt n (by omega))]
      push_cast
      omega

theorem pyInt_natDigits (n : Nat) : pyInt (natDigits n) = some (n : Int) := by
  unfold pyInt
  rw [if_pos, digitsVal_natDigits]
  rw [Bool.and_eq_true, List.all_eq_true]
  constructor
  · cases h : natDigits n with
    | nil => exact absurd h (natDigits_ne_nil n)
    | cons a l => rfl
  · exact natDigits_digits n

theorem findCharIdx_prefix_comma (l1 l2 : List Char) (h : ∀ c ∈ l1, c ≠ ',') :
    findCharIdx (l1 ++ ',' :: l2) ',' = some l1.length := by
  induction l1 with
  | nil => simp [findCharIdx]
  | cons c cs ih =>
    rw [List.cons_append, findCharIdx, if_neg (h c (List.mem_cons_self c cs)),
        ih (fun d hd => h d (List.mem_cons_of_mem c hd))]
    rfl

theorem readMaxDigits_spec (ds : List Char) (hds : ∀ c ∈ ds, isDigitChar c = true)
    (rest : List Char) (hrest : rest = [] ∨ isDigitChar (rest.headD ' ') = false) :
    ∀ (index : Nat) (acc : Int),
    readMaxDigits (ds ++ rest) index acc =
      (ds.foldl (fun a c => a * 10 + digitVal c) acc, rest, index + ds.length) := by
  induction ds with
  | nil =>
    intro index acc
    rcases hrest with rfl | hh
    · rfl
    · cases rest with
      | nil => rfl
      | cons c rs =>
        rw [List.nil_append, readMaxDigits]
        simp only [List.headD_cons] at hh
        rw [if_neg (by rw [hh]; exact Bool.false_ne_true)]
        simp
  | cons d ds ih =>
    intro index acc
    rw [List.cons_append, readMaxDigits,
        if_pos (hds d (List.mem_cons_self d ds)),
        ih (fun c hc => hds c (List.mem_cons_of_mem d hc)) index.succ (acc * 10 + digitVal d)]
    simp only [List.foldl_cons, List.length_cons]
    refine congrArg _ (congrArg _ ?_)
    omega

theorem appendChars_ok (orig : List Char) (cs : List Char)
    (hcs : ∀ c ∈ cs, isLowerAlpha c = true) :
    ∀ (res : BlankSpace) (index : Nat),
    appendChars orig res cs index = .ok (cs.foldl (fun r c => r.append [c]) res) := by
  induction cs with
  | nil => intro res index; rfl
  | cons c cs ih =>
    intro res index
    rw [appendChars, if_pos (hcs c (List.mem_cons_self c cs)),
        ih (fun d hd => hcs d (List.mem_cons_of_mem c hd))]
    rfl

theorem foldl_append_spec (cs : List Char) (res : BlankSpace) :
    (cs.foldl (fun r c => r.append [c]) res).bracketed = res.bracketed ∧
    (cs.foldl (fun r c => r.append [c]) res).negated = res.negated ∧
    (cs.foldl (fun r c => r.append [c]) res).min_blanks = res.min_blanks ∧
    (cs.foldl (fun r c => r.append [c]) res).max_blanks = res.max_blanks ∧
    (cs.foldl (fun r c => r.append [c]) res).possible_characters =
      (if res.negated then res.possible_characters \ cs.toFinset
       else res.possible_characters ∪ cs.toFinset) := by
  induction cs generalizing res with
  | nil =>
    refine ⟨rfl, rfl, rfl, rfl, ?_⟩
    split <;> simp
  | cons c cs ih =>
    rw [List.foldl_cons]
    obtain ⟨i1, i2, i3, i4, i5⟩ := ih (res.append [c])
    refine ⟨by rw [i1, append_bracketed], by rw [i2, append_negated],
            by rw [i3, append_min], by rw [i4, append_max], ?_⟩
    rw [i5, append_negated, append_possible]
    by_cases hn : res.negated = true
    · rw [if_pos hn, if_pos hn, if_pos hn]
      ext x
      simp only [Finset.mem_sdiff, List.mem_toFinset, List.toFinset_cons,
        Finset.mem_insert, List.mem_singleton]
      tauto
    · rw [if_neg hn, if_neg hn, if_neg hn]
      ext x
      simp only [Finset.mem_union, List.mem_toFinset, List.toFinset_cons,
        Finset.mem_insert, List.mem_singleton]
      tauto

theorem parseCharsStage_empty (orig : List Char) (mn mx : Int) (index : Nat) :
    parseCharsStage orig mn mx [] index =
      .ok (mkBlankSpace true false mn mx alphabetList) := rfl

theorem parseCharsStage_pos (orig : List Char) (mn mx : Int) (cs : List Char)
    (index : Nat) (hne : cs ≠ []) (hcs : ∀ c ∈ cs, isLowerAlpha c = true) :
    ∃ r, parseCharsStage orig mn mx cs index = .ok r ∧
      r.bracketed = true ∧ r.negated = false ∧ r.min_blanks = mn ∧
      r.max_blanks = mx ∧ r.possible_characters = cs.toFinset := by
  cases cs with
  | nil => exact absurd rfl hne
  | cons c rs =>
    have hc := hcs c (List.mem_cons_self c rs)
    obtain ⟨-, -, hcar, hbang, -, -⟩ := lower_facts hc
    rw [parseCharsStage, if_neg (by rintro (rfl | rfl); exact hcar rfl; exact hbang rfl)]
    rw [appendChars_ok orig (c :: rs) hcs]
    obtain ⟨f1, f2, f3, f4, f5⟩ :=
      foldl_append_spec (c :: rs) (mkBlankSpace true false mn mx [])
    refine ⟨_, rfl, ?_, ?_, ?_, ?_, ?_⟩
    · rw [f1]; simp
    · rw [f2]; simp
    · rw [f3]; simp
    · rw [f4]; simp
    · rw [f5]
      rw [mkBlankSpace_negated, if_neg Bool.false_ne_true, mkBlankSpace_possible_pos]
      simp

theorem parseCharsStage_neg (orig : List Char) (mn mx : Int) (ex : List Char)
    (index : Nat) (hex : ∀ c ∈ ex, isLowerAlpha c = true) :
    ∃ r, parseCharsStage orig mn mx ('^' :: ex) index = .ok r ∧
      r.bracketed = true ∧ r.negated = true ∧ r.min_blanks = mn ∧
      r.max_blanks = mx ∧
      r.possible_characters = allCharacterSet \ ex.toFinset := by
  rw [parseCharsStage, if_pos (Or.inl rfl)]
  cases ex with
  | nil =>
    simp only [List.isEmpty_nil, if_true]
    refine ⟨_, rfl, by simp, by simp, by simp, by simp, ?_⟩
    rw [mkBlankSpace_possible_neg]
  | cons c rs =>
    rw [if_neg (by simp), appendChars_ok orig (c :: rs) hex]
    obtain ⟨f1, f2, f3, f4, f5⟩ :=
      foldl_append_spec (c :: rs) (mkBlankSpace true true mn mx [])
    refine ⟨_, rfl, ?_, ?_, ?_, ?_, ?_⟩
    · rw [f1]; simp
    · rw [f2]; simp
    · rw [f3]; simp
    · rw [f4]; simp
    · rw [f5]
      rw [mkBlankSpace_negated, if_pos rfl, mkBlankSpace_possible_neg]
      simp

theorem parseMinStage_nodigit (orig : List Char) (inner : List Char)
    (h : isDigitChar (inner.headD ' ') = false) :
    parseMinStage orig inner = .ok (1, inner, 0) := by
  unfold parseMinStage
  rw [if_neg (by rw [h]; exact Bool.false_ne_true)]

theorem parseMinStage_digits (orig : List Char) (mn : Int) (h0 : 0 < mn)
    (rest : List Char) :
    parseMinStage orig (natDigits mn.toNat ++ ',' :: rest) =
      .ok (mn, ',' :: rest, (natDigits mn.toNat).length) ∧
    (natDigits mn.toNat).length ≠ 0 := by
  cases hnd : natDigits mn.toNat with
  | nil => exact absurd hnd (natDigits_ne_nil _)
  | cons d ds =>
    have hdigits : ∀ x ∈ (d :: ds), isDigitChar x = true := by
      intro x hx
      exact natDigits_digits mn.toNat x (by rw [hnd]; exact hx)
    constructor
    · have hpy : pyInt (d :: ds) = some mn := by
        rw [← hnd, pyInt_natDigits, Int.toNat_of_nonneg (le_of_lt h0)]
      unfold parseMinStage
      rw [List.cons_append, List.headD_cons,
          if_pos (hdigits d (List.mem_cons_self d ds)),
          show (d :: (ds ++ ',' :: rest)) = ((d :: ds) ++ ',' :: rest) from rfl,
          findCharIdx_prefix_comma (d :: ds) rest
            (fun x hx => (digit_facts (hdigits x hx)).2.1)]
      simp only [List.take_left, List.drop_left, hpy]
    · simp

theorem parseMaxStage_comma (minlen0 maxDefault : Int) (mx : Int)
    (max_str cs : List Char) (index0 : Nat)
    (hmaxE : (mx = -1 ∧ max_str = []) ∨ (0 ≤ mx ∧ max_str = natDigits mx.toNat))
    (hcs : cs = [] ∨ isDigitChar (cs.headD ' ') = false) :
    ∃ idx, parseMaxStage minlen0 maxDefault (',' :: (max_str ++ cs)) index0 =
      ((if index0 = 0 then 0 else minlen0), mx, cs, idx) := by
  unfold parseMaxStage
  rw [if_pos (show ((',' :: (max_str ++ cs)).headD ' ') = ',' from rfl), List.tail_cons]
  rcases hmaxE with ⟨rfl, rfl⟩ | ⟨hx0, hxd⟩
  · rw [List.nil_append]
    rcases hcs with rfl | hh
    · exact ⟨index0 + 1, rfl⟩
    · cases cs with
      | nil => exact ⟨index0 + 1, rfl⟩
      | cons c cr =>
        simp only [List.headD_cons] at hh
        have hcond : ¬ (isDigitChar c = true) := by
          rw [hh]; exact Bool.false_ne_true
        exact ⟨index0 + 1, by simp only []; rw [if_neg hcond]⟩
  · cases hnd : natDigits mx.toNat with
    | nil => exact absurd hnd (natDigits_ne_nil _)
    | cons d ds =>
      have hdigits : ∀ x ∈ (d :: ds), isDigitChar x = true := by
        intro x hx
        exact natDigits_digits mx.toNat x (by rw [hnd]; exact hx)
      rw [hxd, hnd, List.cons_append]
      refine ⟨index0 + 1 + (d :: ds).length, ?_⟩
      simp only [if_pos (hdigits d (List.mem_cons_self d ds))]
      rw [show (d :: (ds ++ cs)) = ((d :: ds) ++ cs) from rfl,
          readMaxDigits_spec (d :: ds) hdigits cs hcs (index0 + 1) 0]
      have hv : (d :: ds).foldl (fun a c => a * 10 + digitVal c) 0 = mx := by
        have hh := digitsVal_natDigits mx.toNat
        rw [hnd] at hh
        unfold digitsVal at hh
        rw [hh, Int.toNat_of_nonneg hx0]
      rw [hv]

theorem parseBoundsStage_default (orig : List Char) (c : Char) (rs : List Char)
    (h1 : isDigitChar c = false) (h2 : c ≠ ',') :
    parseBoundsStage orig false (c :: rs) = .ok (1, 1, c :: rs, 0) := by
  unfold parseBoundsStage
  rw [parseMinStage_nodigit orig (c :: rs) (by rw [List.headD_cons]; exact h1), exBind_ok]
  simp only []
  unfold parseMaxStage
  rw [List.headD_cons, if_neg h2]
  norm_num

theorem parseBoundsStage_bounds (orig : List Char) (is_f : Bool) (mn mx : Int)
    (min_str max_str cs : List Char)
    (hminE : (mn = 0 ∧ min_str = []) ∨ (0 < mn ∧ min_str = natDigits mn.toNat))
    (hmaxE : (mx = -1 ∧ max_str = []) ∨ (0 ≤ mx ∧ max_str = natDigits mx.toNat))
    (hcs : cs = [] ∨ isDigitChar (cs.headD ' ') = false)
    (hbound : ¬(-1 < mx ∧ mx < mn)) :
    ∃ idx, parseBoundsStage orig is_f (min_str ++ ',' :: (max_str ++ cs)) =
      .ok (mn, mx, cs, idx) := by
  unfold parseBoundsStage
  rcases hminE with ⟨rfl, rfl⟩ | ⟨h0, hmd⟩
  · rw [List.nil_append,
        parseMinStage_nodigit orig _ (by rw [List.headD_cons]; decide), exBind_ok]
    simp only []
    obtain ⟨idx, hms⟩ := parseMaxStage_comma 1 (if is_f then -1 else 1) mx max_str cs 0
      hmaxE hcs
    rw [hms]
    simp only [if_pos rfl]
    rw [if_neg (by simpa using hbound)]
    exact ⟨idx, rfl⟩
  · obtain ⟨hmin, hne0⟩ := parseMinStage_digits orig mn h0 (max_str ++ cs)
    rw [hmd, hmin, exBind_ok]
    simp only []
    obtain ⟨idx, hms⟩ := parseMaxStage_comma mn (if is_f then -1 else 1) mx max_str cs
      (natDigits mn.toNat).length hmaxE hcs
    rw [hms]
    simp only [if_neg hne0]
    rw [if_neg (by simpa using hbound)]
    exact ⟨idx, rfl⟩

theorem parseBlankSpace_bracket (body : List Char) (hne : body ≠ [])
    (hfix : body.map pyLower = body) :
    parseBlankSpace (some ('[' :: body ++ [']'])) =
      exBind (parseBoundsStage ('[' :: body ++ [']']) false body) (fun r1 =>
        exBind (parseCharsStage ('[' :: body ++ [']']) r1.1 r1.2.1 r1.2.2.1 r1.2.2.2)
          (fun r => .ok (some r))) := by
  have hmap : ('[' :: body ++ [']']).map pyLower = '[' :: body ++ [']'] := by
    rw [List.cons_append, List.map_cons, List.map_append, hfix]
    rfl
  have hlen : ('[' :: body ++ [']']).length = body.length + 2 := by
    simp
  have hlast : ('[' :: body ++ [']']).getLast? = some ']' := by
    rw [show ('[' :: body ++ [']']) = ('[' :: body) ++ [']'] from by
      rw [List.cons_append]]
    exact List.getLast?_concat _
  have hinner : ((('[' :: body ++ [']']).drop 1).dropLast) = body := by
    rw [List.cons_append, List.drop_one, List.tail_cons, List.dropLast_concat]
  have hbody_ne : body.isEmpty = false := by
    cases body with
    | nil => exact absurd rfl hne
    | cons a l => rfl
  simp only [parseBlankSpace]
  rw [if_neg (by simp : ¬ ((('[' :: body ++ [']']).isEmpty) = true))]
  rw [hmap]
  rw [if_neg (by rw [hlen]; omega)]
  rw [show ('[' :: body ++ [']']).headD ' ' = '[' from rfl]
  rw [if_pos (Or.inl rfl)]
  rw [hlast]
  simp only [Option.getD_some]
  rw [if_pos (show (']' : Char) = bracketMatch '[' from rfl)]
  rw [hinner, hbody_ne]
  simp only [Bool.false_eq_true, if_false]
  rw [show (decide (('[' : Char) ≠ '[')) = false from by simp]

end RoundTripHelpers

/-- Canonical form of a `BlankSpace`, the domain of the spec's round-trip
property: the character set is drawn from the alphabet; a non-negated class
has at least one character (an empty bracket cannot be rendered); bounds are
ordered with `-1` as the only negative (unbounded) maximum; and an unbracketed
non-negated class whose rendering collapses to a bare letter or `_` (character
count 1 or 26) carries the implicit exactly-one repetition bounds. -/
def canonicalForm (b : BlankSpace) : Prop :=
  b.possible_characters ⊆ allCharacterSet ∧
  (b.negated = false → b.possible_characters ≠ ∅) ∧
  0 ≤ b.min_blanks ∧
  (b.max_blanks = -1 ∨ b.min_blanks ≤ b.max_blanks) ∧
  ((b.bracketed = false ∧ b.negated = false ∧
      (b.possible_characters.card = 1 ∨ b.possible_characters.card = 26)) →
    (b.min_blanks = 1 ∧ b.max_blanks = 1))

/-- C9: rendering a canonical `BlankSpace` to its text notation and re-parsing
yields an equivalent class — the same possible-character set, the same
repetition bounds, and the same negation flag. (The `bracketed` flag is not
part of the equivalence: a two-character unbracketed class renders to a
bracket group.) -/
theorem claim_C9 (b : BlankSpace) (h : canonicalForm b) :
    ∃ r, parseBlankSpace (some (reprBlankSpace b)) = .ok (some r) ∧
      r.possible_characters = b.possible_characters ∧
      r.min_blanks = b.min_blanks ∧
      r.max_blanks = b.max_blanks ∧
      r.negated = b.negated := by
  obtain ⟨hsub, hnine, hmin0, hmm, hsingle⟩ := h
  by_cases hA : b.bracketed = false ∧ b.negated = false ∧ b.possible_characters.card = 1
  · -- bare single letter
    obtain ⟨hbr, hng, hcard⟩ := hA
    obtain ⟨a, ha⟩ := Finset.card_eq_one.1 hcard
    obtain ⟨hm1, hx1⟩ := hsingle ⟨hbr, hng, Or.inl hcard⟩
    have haa : a ∈ allCharacterSet := hsub (by rw [ha]; exact Finset.mem_singleton_self a)
    have hal : isLowerAlpha a = true := mem_allCharacterSet_lower haa
    obtain ⟨-, -, -, -, hau, halw⟩ := lower_facts hal
    have hrepr : reprBlankSpace b = [a] := by
      unfold reprBlankSpace
      rw [if_pos (by rw [hbr, hng, hcard]; rfl), ha, charList_singleton]
      rfl
    rw [hrepr]
    refine ⟨mkBlankSpace false false 1 1 [a], ?_, ?_, ?_, ?_, ?_⟩
    · simp only [parseBlankSpace]
      rw [if_neg (by simp : ¬ (([a] : List Char).isEmpty = true))]
      rw [show ([a].map pyLower) = [a] from by rw [List.map_cons, halw]; rfl]
      rw [if_pos (by simp : ([a] : List Char).length = 1)]
      rw [show ([a].headD ' ') = a from rfl, if_neg hau, if_pos hal]
    · rw [mkBlankSpace_possible_pos, ha]
      simp
    · rw [mkBlankSpace_min, hm1]
    · rw [mkBlankSpace_max, hx1]
    · rw [mkBlankSpace_negated, hng]
  by_cases hB : b.bracketed = false ∧ b.negated = false ∧ b.possible_characters.card = 26
  · -- bare underscore
    obtain ⟨hbr, hng, hcard⟩ := hB
    obtain ⟨hm1, hx1⟩ := hsingle ⟨hbr, hng, Or.inr hcard⟩
    have hall : b.possible_characters = allCharacterSet :=
      Finset.eq_of_subset_of_card_le hsub (by rw [hcard]; decide)
    have hrepr : reprBlankSpace b = ['_'] := by
      unfold reprBlankSpace
      rw [if_neg (by rw [hbr, hng, hcard]; decide)]
      rw [if_pos (by rw [hbr, hng, hcard]; rfl)]
    rw [hrepr]
    refine ⟨mkBlankSpace false false 1 1 [], ?_, ?_, ?_, ?_, ?_⟩
    · simp only [parseBlankSpace]
      rw [if_neg (by simp : ¬ ((['_'] : List Char).isEmpty = true))]
      rw [show (['_'].map pyLower) = ['_'] from by decide]
      rw [if_pos (by simp : (['_'] : List Char).length = 1)]
      rw [show (['_'].headD ' ') = '_' from rfl, if_pos rfl]
    · rw [mkBlankSpace_possible_pos, hall]
      simp
    · rw [mkBlankSpace_min, hm1]
    · rw [mkBlankSpace_max, hx1]
    · rw [mkBlankSpace_negated, hng]
  · -- bracketed rendering
    have hg1 : (!b.bracketed && !b.negated && (b.possible_characters.card == 1)) = false := by
      by_contra hx
      rw [Bool.not_eq_false, Bool.and_eq_true, Bool.and_eq_true] at hx
      obtain ⟨⟨x1, x2⟩, x3⟩ := hx
      exact hA ⟨by simpa using x1, by simpa using x2, by simpa using x3⟩
    have hg2 : (!b.bracketed && !b.negated && (b.possible_characters.card == 26)) = false := by
      by_contra hx
      rw [Bool.not_eq_false, Bool.and_eq_true, Bool.and_eq_true] at hx
      obtain ⟨⟨x1, x2⟩, x3⟩ := hx
      exact hB ⟨by simpa using x1, by simpa using x2, by simpa using x3⟩
    -- the character body and what parseCharsStage yields on it
    obtain ⟨cs, hcs_def, hcs_ne, hcs_dig, hcs_comma, hcs_fix, hcs_parse,
            hcsOpt_parse, hcsOpt_head⟩ :
        ∃ cs : List Char,
          cs = (if b.negated then
                  '^' :: charList (allCharacterSet \ b.possible_characters)
                else if !b.is_all_chars then charList b.possible_characters
                else alphabetList) ∧
          cs ≠ [] ∧
          isDigitChar (cs.headD ' ') = false ∧
          cs.headD ' ' ≠ ',' ∧
          cs.map pyLower = cs ∧
          (∀ (orig : List Char) (mn mx : Int) (index : Nat),
            ∃ r, parseCharsStage orig mn mx cs index = .ok r ∧
              r.negated = b.negated ∧ r.min_blanks = mn ∧ r.max_blanks = mx ∧
              r.possible_characters = b.possible_characters) ∧
          (∀ (orig : List Char) (mn mx : Int) (index : Nat),
            ∃ r, parseCharsStage orig mn mx
                (if cs = alphabetList then [] else cs) index = .ok r ∧
              r.negated = b.negated ∧ r.min_blanks = mn ∧ r.max_blanks = mx ∧
              r.possible_characters = b.possible_characters) ∧
          ((if cs = alphabetList then ([] : List Char) else cs) = [] ∨
            isDigitChar ((if cs = alphabetList then [] else cs).headD ' ') = false) := by
      by_cases hng : b.negated = true
      · have hnea : ('^' :: charList (allCharacterSet \ b.possible_characters)) ≠
            alphabetList := by
          intro hx
          have hhd := congrArg (fun l => l.headD ' ') hx
          simp only [List.headD_cons] at hhd
          exact absurd hhd (by decide)
        have hparse : ∀ (orig : List Char) (mn mx : Int) (index : Nat),
            ∃ r, parseCharsStage orig mn mx
                ('^' :: charList (allCharacterSet \ b.possible_characters)) index =
                .ok r ∧
              r.negated = b.negated ∧ r.min_blanks = mn ∧ r.max_blanks = mx ∧
              r.possible_characters = b.possible_characters := by
          intro orig mn mx index
          obtain ⟨r, hr, f1, f2, f3, f4, f5⟩ := parseCharsStage_neg orig
            mn mx (charList (allCharacterSet \ b.possible_characters)) index
            (charList_lower (Finset.sdiff_subset))
          refine ⟨r, hr, by rw [f2, hng], f3, f4, ?_⟩
          rw [f5, charList_toFinset, sdiff_sdiff_right_self]
          exact Finset.inter_eq_right.2 hsub
        refine ⟨'^' :: charList (allCharacterSet \ b.possible_characters),
          by rw [if_pos hng], by simp, by rw [List.headD_cons]; decide,
          by rw [List.headD_cons]; decide, ?_, hparse, ?_, ?_⟩
        · rw [List.map_cons]
          rw [map_pyLower_id (fun c hc =>
            (lower_facts (charList_lower (Finset.sdiff_subset) c hc)).2.2.2.2.2)]
          rfl
        · rw [if_neg hnea]
          exact hparse
        · rw [if_neg hnea]
          right
          rw [List.headD_cons]
          decide
      · have hng' : b.negated = false := by simpa using hng
        by_cases hall : b.is_all_chars = true
        · have halls : b.possible_characters = allCharacterSet := by
            have hh := hall
            unfold BlankSpace.is_all_chars at hh
            simpa using hh
          refine ⟨alphabetList, ?_, by decide, by decide, by decide, by decide, ?_, ?_, ?_⟩
          · rw [if_neg hng, if_neg (by rw [hall]; simp)]
          · intro orig mn mx index
            obtain ⟨r, hr, f1, f2, f3, f4, f5⟩ := parseCharsStage_pos orig
              mn mx alphabetList index (by decide) alphabetList_lower
            refine ⟨r, hr, by rw [f2, hng'], f3, f4, ?_⟩
            rw [f5, halls]
            rfl
          · intro orig mn mx index
            rw [if_pos rfl, parseCharsStage_empty]
            refine ⟨mkBlankSpace true false mn mx alphabetList, rfl, by simp [hng'],
              by simp, by simp, ?_⟩
            rw [mkBlankSpace_possible_pos, halls]
            simp [allCharacterSet]
          · rw [if_pos rfl]
            left
            rfl
        · have hall' : b.is_all_chars = false := by simpa using hall
          have hSne : b.possible_characters ≠ ∅ := hnine hng'
          have hclne : charList b.possible_characters ≠ [] :=
            fun hx => hSne (charList_eq_nil.1 hx)
          have hnea : charList b.possible_characters ≠ alphabetList := by
            intro hx
            have hts := congrArg List.toFinset hx
            rw [charList_toFinset] at hts
            have : b.is_all_chars = true := by
              unfold BlankSpace.is_all_chars
              rw [hts]
              simp [allCharacterSet]
            rw [hall'] at this
            exact Bool.false_ne_true this
          have hparse : ∀ (orig : List Char) (mn mx : Int) (index : Nat),
              ∃ r, parseCharsStage orig mn mx (charList b.possible_characters) index =
                  .ok r ∧
                r.negated = b.negated ∧ r.min_blanks = mn ∧ r.max_blanks = mx ∧
                r.possible_characters = b.possible_characters := by
            intro orig mn mx index
            obtain ⟨r, hr, f1, f2, f3, f4, f5⟩ := parseCharsStage_pos orig
              mn mx (charList b.possible_characters) index hclne (charList_lower hsub)
            refine ⟨r, hr, by rw [f2, hng'], f3, f4, ?_⟩
            rw [f5, charList_toFinset]
          have hhead : isDigitChar ((charList b.possible_characters).headD ' ') = false ∧
              (charList b.possible_characters).headD ' ' ≠ ',' := by
            cases hcl : charList b.possible_characters with
            | nil => exact absurd hcl hclne
            | cons c rest =>
              rw [List.headD_cons]
              have hlow := charList_lower hsub c (by rw [hcl]; simp)
              exact ⟨(lower_facts hlow).1, (lower_facts hlow).2.1⟩
          refine ⟨charList b.possible_characters, ?_, hclne, hhead.1, hhead.2, ?_,
            hparse, ?_, ?_⟩
          · rw [if_neg hng, if_pos (by rw [hall']; rfl)]
          · exact map_pyLower_id (fun c hc =>
              (lower_facts (charList_lower hsub c hc)).2.2.2.2.2)
          · rw [if_neg hnea]
            exact hparse
          · rw [if_neg hnea]
            right
            exact hhead.1
    -- rewrite the rendering into bracket form
    have hrepr : reprBlankSpace b =
        (if b.min_blanks = 1 ∧ b.max_blanks = 1 then '[' :: cs ++ [']']
         else '[' :: ((if b.min_blanks = 0 then [] else pyIntRepr b.min_blanks) ++
             [','] ++ (if b.max_blanks = -1 then [] else pyIntRepr b.max_blanks) ++
             (if cs = alphabetList then [] else cs)) ++ [']']) := by
      unfold reprBlankSpace
      rw [if_neg (by rw [hg1]; exact Bool.false_ne_true),
          if_neg (by rw [hg2]; exact Bool.false_ne_true)]
      simp only []
      rw [← hcs_def]
    by_cases h11 : b.min_blanks = 1 ∧ b.max_blanks = 1
    · -- implicit bounds: the body is just the character list
      rw [hrepr, if_pos h11]
      rw [parseBlankSpace_bracket cs hcs_ne hcs_fix]
      cases hc2 : cs with
      | nil => exact absurd hc2 hcs_ne
      | cons c rs =>
        rw [hc2] at hcs_dig hcs_comma
        rw [List.headD_cons] at hcs_dig hcs_comma
        rw [parseBoundsStage_default _ c rs hcs_dig hcs_comma, exBind_ok]
        simp only []
        rw [← hc2]
        obtain ⟨r, hr, f2, f3, f4, f5⟩ :=
          hcs_parse ('[' :: cs ++ [']']) 1 1 0
        rw [hr, exBind_ok]
        exact ⟨r, rfl, f5, by rw [f3, h11.1], by rw [f4, h11.2], f2⟩
    · -- explicit bounds
      rw [hrepr, if_neg h11]
      have hminE : (b.min_blanks = 0 ∧
            (if b.min_blanks = 0 then ([] : List Char) else pyIntRepr b.min_blanks) = []) ∨
          (0 < b.min_blanks ∧
            (if b.min_blanks = 0 then ([] : List Char) else pyIntRepr b.min_blanks) =
              natDigits b.min_blanks.toNat) := by
        by_cases hz : b.min_blanks = 0
        · left
          exact ⟨hz, by rw [if_pos hz]⟩
        · right
          refine ⟨lt_of_le_of_ne hmin0 (Ne.symm hz), ?_⟩
          rw [if_neg hz]
          unfold pyIntRepr
          rw [if_neg (by omega)]
      have hmaxE : (b.max_blanks = -1 ∧
            (if b.max_blanks = -1 then ([] : List Char) else pyIntRepr b.max_blanks) = []) ∨
          (0 ≤ b.max_blanks ∧
            (if b.max_blanks = -1 then ([] : List Char) else pyIntRepr b.max_blanks) =
              natDigits b.max_blanks.toNat) := by
        rcases hmm with hu | hle
        · left
          exact ⟨hu, by rw [if_pos hu]⟩
        · right
          refine ⟨le_trans hmin0 hle, ?_⟩
          rw [if_neg (by omega)]
          unfold pyIntRepr
          rw [if_neg (by omega)]
      have hbound : ¬(-1 < b.max_blanks ∧ b.max_blanks < b.min_blanks) := by
        rcases hmm with hu | hle
        · omega
        · omega
      have hshape : ((if b.min_blanks = 0 then ([] : List Char) else pyIntRepr b.min_blanks) ++
            [','] ++ (if b.max_blanks = -1 then [] else pyIntRepr b.max_blanks) ++
            (if cs = alphabetList then [] else cs)) =
          ((if b.min_blanks = 0 then ([] : List Char) else pyIntRepr b.min_blanks) ++
            ',' :: ((if b.max_blanks = -1 then [] else pyIntRepr b.max_blanks) ++
              (if cs = alphabetList then [] else cs))) := by
        simp [List.append_assoc]
      rw [hshape]
      have hbody_fix :
          ((if b.min_blanks = 0 then ([] : List Char) else pyIntRepr b.min_blanks) ++
            ',' :: ((if b.max_blanks = -1 then [] else pyIntRepr b.max_blanks) ++
              (if cs = alphabetList then [] else cs))).map pyLower =
          ((if b.min_blanks = 0 then ([] : List Char) else pyIntRepr b.min_blanks) ++
            ',' :: ((if b.max_blanks = -1 then [] else pyIntRepr b.max_blanks) ++
              (if cs = alphabetList then [] else cs))) := by
        have hd1 : ∀ l : List Char, (∀ d ∈ l, isDigitChar d = true) →
            l.map pyLower = l := fun l hl =>
          map_pyLower_id (fun c hc => (digit_facts (hl c hc)).2.2)
        have hm1 : (if b.min_blanks = 0 then ([] : List Char)
            else pyIntRepr b.min_blanks).map pyLower =
            (if b.min_blanks = 0 then ([] : List Char) else pyIntRepr b.min_blanks) := by
          rcases hminE with ⟨-, he⟩ | ⟨-, he⟩ <;> rw [he]
          · rfl
          · exact hd1 _ (natDigits_digits _)
        have hm2 : (if b.max_blanks = -1 then ([] : List Char)
            else pyIntRepr b.max_blanks).map pyLower =
            (if b.max_blanks = -1 then ([] : List Char) else pyIntRepr b.max_blanks) := by
          rcases hmaxE with ⟨-, he⟩ | ⟨-, he⟩ <;> rw [he]
          · rfl
          · exact hd1 _ (natDigits_digits _)
        have hm3 : (if cs = alphabetList then ([] : List Char) else cs).map pyLower =
            (if cs = alphabetList then ([] : List Char) else cs) := by
          by_cases hx : cs = alphabetList
          · rw [if_pos hx]; rfl
          · rw [if_neg hx]; exact hcs_fix
        rw [List.map_append, List.map_cons, List.map_append, hm1, hm2, hm3]
        rfl
      rw [parseBlankSpace_bracket _ (by simp) hbody_fix]
      obtain ⟨idx, hbounds⟩ := parseBoundsStage_bounds
        ('[' :: ((if b.min_blanks = 0 then ([] : List Char) else pyIntRepr b.min_blanks) ++
          ',' :: ((if b.max_blanks = -1 then [] else pyIntRepr b.max_blanks) ++
            (if cs = alphabetList then [] else cs))) ++ [']'])
        false b.min_blanks b.max_blanks _ _ _ hminE hmaxE hcsOpt_head hbound
      rw [hbounds, exBind_ok]
      simp only []
      obtain ⟨r, hr, f2, f3, f4, f5⟩ := hcsOpt_parse
        ('[' :: ((if b.min_blanks = 0 then ([] : List Char) else pyIntRepr b.min_blanks) ++
          ',' :: ((if b.max_blanks = -1 then [] else pyIntRepr b.max_blanks) ++
            (if cs = alphabetList then [] else cs))) ++ [']'])
        b.min_blanks b.max_blanks idx
      rw [hr, exBind_ok]
      exact ⟨r, rfl, f5, f3, f4, f2⟩

instance (b : BlankSpace) : Decidable (canonicalForm b) := by
  unfold canonicalForm
  infer_instance

/-- Witness for C9 on the concrete canonical class `[2,5ab]`. -/
theorem claim_C9_witness :
    canonicalForm (mkBlankSpace true false 2 5 ['a', 'b']) ∧
    (∃ r, parseBlankSpace
        (some (reprBlankSpace (mkBlankSpace true false 2 5 ['a', 'b']))) = .ok (some r) ∧
      r.possible_characters = (mkBlankSpace true false 2 5 ['a', 'b']).possible_characters ∧
      r.min_blanks = (mkBlankSpace true false 2 5 ['a', 'b']).min_blanks ∧
      r.max_blanks = (mkBlankSpace true false 2 5 ['a', 'b']).max_blanks ∧
      r.negated = (mkBlankSpace true false 2 5 ['a', 'b']).negated) :=
  ⟨by decide, claim_C9 (mkBlankSpace true false 2 5 ['a', 'b']) (by decide)⟩

end WordSolvers
